import Mathlib

/-!
Verification development for the salesforce-docs-mcp search core.

The TypeScript sources are shallowly embedded: strings are modelled as
`List Char`, JavaScript string/regex operations used by the code are given
executable Lean counterparts, and each source function is translated
definition-by-definition (chunker from src/utils/chunker.ts, intent
detection and query expansion from src/utils/intent.ts, the search path
from src/db/queries.ts, the index builder from scripts/build-index.ts).
Floating point relevance arithmetic is modelled over `ℚ`; JavaScript
whitespace is modelled by its ASCII part.
-/

/-- Strings are modelled as lists of characters. -/
abbrev Str := List Char

/-- JavaScript regex `\s` class, restricted to its ASCII members
(space, tab, newline, carriage return, vertical tab, form feed). -/
def isWsChar (c : Char) : Bool :=
  c = ' ' || c = '\t' || c = '\n' || c = '\r' || c = '\x0b' || c = '\x0c'

/-- JavaScript `String.prototype.toLowerCase` (ASCII-relevant part). -/
def jsToLower (s : Str) : Str := s.map Char.toLower

/-- JavaScript `String.prototype.trim`. -/
def jsTrim (s : Str) : Str :=
  ((s.dropWhile isWsChar).reverse.dropWhile isWsChar).reverse

/-- Does `needle` occur at the very start of the string? -/
def hasPref : Str → Str → Bool
  | _, [] => true
  | [], _ :: _ => false
  | c :: cs, d :: ds => c = d && hasPref cs ds

/-- JavaScript `String.prototype.includes` (substring containment). -/
def jsIncludes : Str → Str → Bool
  | hay, needle =>
    match hay with
    | [] => hasPref [] needle
    | _ :: t => hasPref hay needle || jsIncludes t needle

/-- JavaScript `String.prototype.indexOf`: position of the first
occurrence of `needle`, if any. -/
def jsIndexOf : Str → Str → Option Nat
  | [], needle => if hasPref [] needle then some 0 else none
  | c :: t, needle =>
    if hasPref (c :: t) needle then some 0
    else (jsIndexOf t needle).map (· + 1)

/-- Fuel-driven worker for `countOccurrences`. -/
def countOccFuel : Nat → Str → Str → Nat
  | 0, _, _ => 0
  | fuel + 1, hay, needle =>
    match jsIndexOf hay needle with
    | none => 0
    | some i => 1 + countOccFuel fuel (hay.drop (i + needle.length)) needle

/-- Number of matches found by `content.match(new RegExp(escapedTerm, "gi"))`:
left-to-right, non-overlapping occurrences of the literal term. -/
def countOccurrences (hay needle : Str) : Nat :=
  countOccFuel (hay.length + 1) hay needle

/-- JavaScript `String.prototype.substring` (clamps both indices to the
string length and swaps them when given in descending order). -/
def jsSubstring (s : Str) (a b : Nat) : Str :=
  let a2 := min a s.length
  let b2 := min b s.length
  let lo := min a2 b2
  let hi := max a2 b2
  (s.drop lo).take (hi - lo)

/-- Worker for `splitWs`: splits at every single whitespace character
(`String.prototype.split` against a one-character separator class),
producing an empty piece between adjacent separators. -/
def splitWsCore : Str → List Str
  | [] => [[]]
  | c :: rest =>
    if isWsChar c then [] :: splitWsCore rest
    else
      match splitWsCore rest with
      | [] => [[c]]
      | t :: ts => (c :: t) :: ts

/-- JavaScript `split(/\s+/)`: pieces between maximal whitespace runs,
with an empty leading (trailing) piece when the string starts (ends)
with whitespace, and `[""]` on the empty string. -/
def splitWs (s : Str) : List Str :=
  if s.isEmpty then [[]]
  else
    (if (s.head?).any isWsChar then [([] : Str)] else [])
      ++ (splitWsCore s).filter (fun t => !t.isEmpty)
      ++ (if (s.getLast?).any isWsChar then [([] : Str)] else [])

/-- One `foldr` step of `splitParas`: builds the piece list right to left,
treating each maximal run of two or more newlines as one separator
(JavaScript `split(/\n\n+/)`). The boolean records that the scan is
inside such a separator run. -/
def splitParasStep (c : Char) (st : List Str × Bool) : List Str × Bool :=
  let (toks, inSep) := st
  if c = '\n' then
    if inSep then (toks, true)
    else
      match toks with
      | ('\n' :: t2) :: ts => ([] :: t2 :: ts, true)
      | t :: ts => (('\n' :: t) :: ts, false)
      | [] => ([['\n']], false)
  else
    match toks with
    | t :: ts => ((c :: t) :: ts, false)
    | [] => ([[c]], false)

/-- JavaScript `split(/\n\n+/)` (paragraph split in the chunker). -/
def splitParas (s : Str) : List Str :=
  (s.foldr splitParasStep ([[]], false)).1

/-- Sentence-terminating punctuation, the `[.!?]` class. -/
def isTermChar (c : Char) : Bool := c = '.' || c = '!' || c = '?'

/-- Fuel-driven worker for `sentenceMatches`: successive matches of
`/[^.!?]+[.!?]+/g` — skip terminators, take a maximal run of
non-terminators, require and take a maximal run of terminators. -/
def sentencesFuel : Nat → Str → List Str
  | 0, _ => []
  | fuel + 1, cs =>
    let cs1 := cs.dropWhile isTermChar
    let a := cs1.takeWhile (fun c => !isTermChar c)
    let rest := cs1.dropWhile (fun c => !isTermChar c)
    match rest with
    | [] => []
    | _ :: _ =>
      (a ++ rest.takeWhile isTermChar) :: sentencesFuel fuel (rest.dropWhile isTermChar)

/-- JavaScript `para.match(/[^.!?]+[.!?]+/g)` (empty list for `null`). -/
def sentenceMatches (para : Str) : List Str :=
  sentencesFuel (para.length + 1) para

/-- Character at an index, if in range. -/
def charAt? (s : Str) (i : Nat) : Option Char := (s.drop i).head?

/-- The `[A-Z]` character class. -/
def isUpperAZ (c : Char) : Bool := 'A' ≤ c && c ≤ 'Z'

/-- Multiline `$`: end of string or just before a newline. -/
def isEolAt (s : Str) (p : Nat) : Bool :=
  p = s.length || charAt? s p = some '\n'

/-- Multiline `^`: start of string or just after a newline. -/
def isBolAt (s : Str) (p : Nat) : Bool :=
  p = 0 || charAt? s (p - 1) = some '\n'

/-- Length of the maximal run of characters satisfying `p` starting at
index `i`. -/
def runLen (p : Char → Bool) (s : Str) (i : Nat) : Nat :=
  ((s.drop i).takeWhile p).length

/-- First alternative of the heading regex, `#{1,3}\s+(.+)$`, tried at
index `i`: one to three hash marks, then a greedy whitespace run that
backtracks until the `(.+)` group (a nonempty maximal run of
non-newline characters) can match, then the multiline `$` (automatic,
since the run is maximal). Returns the match end and the group text. -/
def matchHashHeadingAt (s : Str) (i : Nat) : Option (Nat × Str) :=
  let h := runLen (fun c => c = '#') s i
  if 1 ≤ h && h ≤ 3 then
    let j := i + h
    let m := runLen isWsChar s j
    if m = 0 then none
    else
      (List.range' (j + 1) m).reverse.findSome? (fun jm =>
        let d := runLen (fun c => c ≠ '\n') s jm
        if 1 ≤ d then some (jm + d, jsSubstring s jm (jm + d)) else none)
  else none

/-- Second alternative of the heading regex, `[A-Z][A-Z\s]{5,}[A-Z]$`,
tried at index `i`: an uppercase letter, a greedy run of `m ∈ [5, r]`
characters from `[A-Z\s]` backtracking from the maximal run length `r`
downward, a final uppercase letter, then the multiline `$`. Returns
the match end and the whole match (the regex group). -/
def matchCapsHeadingAt (s : Str) (i : Nat) : Option (Nat × Str) :=
  if (charAt? s i).any isUpperAZ then
    let r := runLen (fun c => isUpperAZ c || isWsChar c) s (i + 1)
    (List.range' 5 (r - 4)).reverse.findSome? (fun m =>
      if (charAt? s (i + 1 + m)).any isUpperAZ && isEolAt s (i + 2 + m) then
        some (i + 2 + m, jsSubstring s i (i + 2 + m))
      else none)
  else none

/-- The heading regex
`/^(?:#{1,3}\s+(.+)|([A-Z][A-Z\s]{5,}[A-Z]))$/gm` attempted at index
`i` (the `^` anchor is checked by the caller); the hash alternative is
tried first. Returns the match end and `match[1] || match[2]`. -/
def matchHeadingAt (s : Str) (i : Nat) : Option (Nat × Str) :=
  match matchHashHeadingAt s i with
  | some r => some r
  | none => matchCapsHeadingAt s i

/-- One `exec` call of the global heading regex: the leftmost match
starting at or after `start`. Returns `(match.index, length, group)`. -/
def findNextHeading (s : Str) (start : Nat) : Option (Nat × Nat × Str) :=
  (List.range' start (s.length + 1 - start)).findSome? (fun p =>
    if isBolAt s p then
      (matchHeadingAt s p).map (fun r => (p, r.1 - p, r.2))
    else none)

/-- Fuel-driven worker for `findHeadings` (each match is nonempty, so
the scan position strictly increases and `s.length + 1` fuel always
suffices). -/
def findHeadingsFuel : Nat → Str → Nat → List (Nat × Nat × Str)
  | 0, _, _ => []
  | fuel + 1, s, start =>
    match findNextHeading s start with
    | none => []
    | some (idx, len, title) => (idx, len, title) :: findHeadingsFuel fuel s (idx + len)

/-- All matches of the global heading regex, as the `while exec` loop
of `splitBySections` sees them. -/
def findHeadings (s : Str) : List (Nat × Nat × Str) :=
  findHeadingsFuel (s.length + 1) s 0

/-- A section of a document: optional heading title and its text. -/
structure SectionRec where
  title : Option Str
  content : Str
deriving DecidableEq

/-- Loop body of `splitBySections`: emit the text between the previous
scan position and this heading (when longer than 50 characters after
trimming) under the previous heading title, then advance past the
match and remember its trimmed title. -/
def sectionStep (text : Str) (st : List SectionRec × Nat × Option Str)
    (m : Nat × Nat × Str) : List SectionRec × Nat × Option Str :=
  let (secs, lastIndex, lastTitle) := st
  let (idx, len, title) := m
  let secs2 :=
    if idx > lastIndex then
      let content := jsTrim (jsSubstring text lastIndex idx)
      if content.length > 50 then secs ++ [⟨lastTitle, content⟩] else secs
    else secs
  (secs2, idx + len, some (jsTrim title))

/-- Function `splitBySections` of chunker.ts: split on heading matches, emit the
final tail section, and fall back to one untitled whole-text section
when nothing was emitted. -/
def splitBySections (text : Str) : List SectionRec :=
  let st := (findHeadings text).foldl (sectionStep text) ([], 0, none)
  let secs2 :=
    if st.2.1 < text.length then
      let content := jsTrim (text.drop st.2.1)
      if content.length > 50 then st.1 ++ [⟨st.2.2, content⟩] else st.1
    else st.1
  if secs2.isEmpty then [⟨none, text⟩] else secs2

/-- Word-packing loop body of `splitLongParagraph` (last-resort split of
an over-long sentence at word boundaries, joining with one space). -/
def wordStep (maxCS : Nat) (st : List Str × Str) (word : Str) : List Str × Str :=
  let (chunks, cur) := st
  if cur.length + word.length > maxCS then
    (chunks ++ [jsTrim cur], word)
  else
    (chunks, cur ++ (if cur.isEmpty then [] else [' ']) ++ word)

/-- Sentence-packing loop body of `splitLongParagraph` (sentences are
concatenated without a joiner; an over-long sentence is split by
words). -/
def sentenceStep (maxCS : Nat) (st : List Str × Str) (sentence : Str) : List Str × Str :=
  let (chunks, cur) := st
  if cur.length + sentence.length > maxCS then
    let chunks2 := if cur.length > 0 then chunks ++ [jsTrim cur] else chunks
    if sentence.length > maxCS then
      (splitWs sentence).foldl (wordStep maxCS) (chunks2, [])
    else (chunks2, sentence)
  else (chunks, cur ++ sentence)

/-- Function `splitLongParagraph` of chunker.ts: split an over-long paragraph by
sentences (falling back to the paragraph itself when the sentence
regex finds no match), packing greedily up to `maxCS`. -/
def splitLongParagraph (para : Str) (maxCS : Nat) : List Str :=
  let ms := sentenceMatches para
  let sentences := if ms.isEmpty then [para] else ms
  let st := sentences.foldl (sentenceStep maxCS) ([], [])
  if st.2.length > 0 then st.1 ++ [jsTrim st.2] else st.1

/-- Paragraph-packing loop body of `chunkSection` (paragraphs joined
with a blank line; an over-long paragraph is handed to
`splitLongParagraph`, whose last piece becomes the running buffer). -/
def paraStep (maxCS : Nat) (st : List Str × Str) (para : Str) : List Str × Str :=
  let (chunks, cur) := st
  if cur.length + para.length > maxCS then
    let chunks2 := if cur.length > 0 then chunks ++ [jsTrim cur] else chunks
    if para.length > maxCS then
      let sub := splitLongParagraph para maxCS
      (chunks2 ++ sub.dropLast, (sub.getLast?).getD [])
    else (chunks2, para)
  else (chunks, cur ++ (if cur.isEmpty then [] else ['\n', '\n']) ++ para)

/-- The visible continuation marker inserted between the overlap prefix
and a chunk body. -/
def contMarker : Str := (" [...] ").data

/-- Overlap injection for one chunk: take the trailing `overlapSize`
characters of the previous chunk, and if they contain a space at a
positive index, prepend everything after the first space plus the
continuation marker. -/
def overlapOne (overlapSize : Nat) (prev chunk : Str) : Str :=
  let overlap := prev.drop (prev.length - overlapSize)
  match jsIndexOf overlap [' '] with
  | some lastSpace =>
    if lastSpace > 0 then (overlap.drop (lastSpace + 1)) ++ contMarker ++ chunk
    else chunk
  | none => chunk

/-- Function `addOverlap` of chunker.ts: every chunk after the first receives a
context prefix from its predecessor. -/
def addOverlap (chunks : List Str) (overlapSize : Nat) : List Str :=
  if chunks.length ≤ 1 || overlapSize = 0 then chunks
  else
    match chunks with
    | [] => []
    | c0 :: rest => c0 :: List.zipWith (overlapOne overlapSize) chunks rest

/-- Function `chunkSection` of chunker.ts: a section that fits in `maxCS` is one
chunk; otherwise paragraphs are packed greedily and overlap is added. -/
def chunkSection (text : Str) (maxCS overlapSize : Nat) : List Str :=
  if text.length ≤ maxCS then [text]
  else
    let st := (splitParas text).foldl (paraStep maxCS) ([], [])
    let chunks2 := if st.2.length > 0 then st.1 ++ [jsTrim st.2] else st.1
    addOverlap chunks2 overlapSize

/-- An output chunk: sequential index, trimmed content, and the title of
the originating section. -/
structure ChunkRec where
  index : Nat
  content : Str
  sectionTitle : Option Str
deriving DecidableEq

/-- Function `chunkText` of chunker.ts with explicit options
(defaults `maxCS = 1500`, `overlapSize = 200`). -/
def chunkText (text : Str) (maxCS overlapSize : Nat) : List ChunkRec :=
  let pieces := (splitBySections text).flatMap (fun sec =>
    (chunkSection sec.content maxCS overlapSize).map (fun c => (jsTrim c, sec.title)))
  pieces.enum.map (fun p => ⟨p.1, p.2.1, p.2.2⟩)

/-- Confidence tiers of the intent classifier. -/
inductive Conf
  | high
  | medium
  | low
deriving DecidableEq

/-- Structure `DetectedIntent` of intent.ts. -/
structure DetectedIntent where
  category : Option Str
  subcategory : Option Str
  confidence : Conf
  matchedPatterns : List Str
  totalWeight : Nat
deriving DecidableEq

/-- Structure `QueryExpansion` of intent.ts. -/
structure QueryExpansion where
  expandedTerms : List Str
  detectedConcepts : List Str
  suggestedCategory : Option Str
  confidence : Conf
  reasoning : Str
deriving DecidableEq

/-- Structure `IntentPattern` of intent.ts. -/
structure IntentPattern where
  keywords : List Str
  category : Str
  subcategory : Str
  weight : Nat
deriving DecidableEq

/-- The `INTENT_PATTERNS` table of intent.ts, transcribed entry by
entry in declaration order. -/
def INTENT_PATTERNS : List IntentPattern := [
  ⟨["apex".data, "trigger".data, "class".data, "soql in apex".data], "core_platform".data, "apex".data, 10⟩,
  ⟨["batch apex".data, "queueable".data, "schedulable".data, "future method".data], "core_platform".data, "apex".data, 12⟩,
  ⟨["apex test".data, "test class".data, "testmethod".data, "test.starttest".data], "core_platform".data, "apex".data, 10⟩,
  ⟨["apex governor".data, "limits".data, "governor limits".data], "core_platform".data, "apex".data, 10⟩,
  ⟨["lwc".data, "lightning web component".data, "web component".data], "core_platform".data, "lightning".data, 10⟩,
  ⟨["@wire".data, "@api".data, "@track".data, "lightning-".data], "core_platform".data, "lightning".data, 10⟩,
  ⟨["lwc lifecycle".data, "connectedcallback".data, "renderedcallback".data], "core_platform".data, "lightning".data, 12⟩,
  ⟨["aura".data, "aura component".data, "lightning component".data, "component bundle".data], "core_platform".data, "lightning".data, 8⟩,
  ⟨["visualforce".data, "apex:page".data, "apex:form".data, "vf page".data], "core_platform".data, "visualforce".data, 10⟩,
  ⟨["soql".data, "select from".data, "where clause".data, "relationship query".data], "core_platform".data, "soql_sosl".data, 10⟩,
  ⟨["sosl".data, "find".data, "search query".data], "core_platform".data, "soql_sosl".data, 10⟩,
  ⟨["formula".data, "formula field".data, "validation rule".data, "workflow rule".data], "core_platform".data, "formulas".data, 8⟩,
  ⟨["rest api".data, "restful".data, "/services/data/".data, "sobject".data], "apis".data, "rest_api".data, 10⟩,
  ⟨["composite api".data, "composite request".data, "batch request".data], "apis".data, "rest_api".data, 12⟩,
  ⟨["soap api".data, "enterprise wsdl".data, "partner wsdl".data], "apis".data, "soap_api".data, 10⟩,
  ⟨["metadata api".data, "deploy".data, "retrieve".data, "package.xml".data], "apis".data, "metadata_api".data, 10⟩,
  ⟨["bulk api".data, "bulk 2.0".data, "bulk data".data, "data loader".data], "apis".data, "bulk_api".data, 10⟩,
  ⟨["streaming api".data, "pushtopic".data, "platform event".data, "cdc".data, "change data capture".data], "apis".data, "streaming_api".data, 10⟩,
  ⟨["tooling api".data, "execute anonymous".data, "debug log".data, "apextestrun".data], "apis".data, "tooling_api".data, 10⟩,
  ⟨["chatter api".data, "connect api".data, "feed item".data], "apis".data, "specialized_apis".data, 8⟩,
  ⟨["analytics api".data, "reports api".data, "dashboard api".data, "wave".data], "apis".data, "specialized_apis".data, 8⟩,
  ⟨["sfdx".data, "sf cli".data, "salesforce cli".data, "dx".data], "dev_tools".data, "sfdx_cli".data, 10⟩,
  ⟨["scratch org".data, "dev hub".data, "source push".data, "source pull".data], "dev_tools".data, "sfdx_cli".data, 10⟩,
  ⟨["package".data, "unlocked package".data, "2gp".data, "managed package".data], "dev_tools".data, "packaging".data, 10⟩,
  ⟨["isvforce".data, "appexchange".data, "security review".data], "dev_tools".data, "packaging".data, 8⟩,
  ⟨["devops".data, "ci/cd".data, "deployment".data, "git".data, "version control".data], "dev_tools".data, "devops".data, 8⟩,
  ⟨["mobile sdk".data, "salesforce mobile".data, "mobile app".data], "dev_tools".data, "mobile_sdk".data, 8⟩,
  ⟨["security".data, "permission".data, "sharing".data, "fls".data, "field level security".data], "security".data, "security".data, 10⟩,
  ⟨["oauth".data, "connected app".data, "jwt".data, "authentication".data], "security".data, "security".data, 10⟩,
  ⟨["encryption".data, "shield".data, "platform encryption".data], "security".data, "security".data, 10⟩,
  ⟨["integration".data, "callout".data, "external service".data, "http".data], "integration".data, "integration".data, 8⟩,
  ⟨["mulesoft".data, "anypoint".data, "heroku".data], "integration".data, "integration".data, 8⟩,
  ⟨["external object".data, "odata".data, "salesforce connect".data], "integration".data, "integration".data, 8⟩,
  ⟨["sales cloud".data, "opportunity".data, "lead".data, "account".data, "contact".data], "clouds".data, "sales_cloud".data, 6⟩,
  ⟨["service cloud".data, "case".data, "knowledge".data, "omni-channel".data], "clouds".data, "service_cloud".data, 6⟩,
  ⟨["experience cloud".data, "community".data, "site".data, "portal".data], "clouds".data, "experience_cloud".data, 8⟩,
  ⟨["marketing cloud".data, "journey builder".data, "email studio".data], "clouds".data, "marketing_cloud".data, 8⟩,
  ⟨["crm analytics".data, "tableau crm".data, "einstein analytics".data], "clouds".data, "analytics_cloud".data, 8⟩,
  ⟨["best practice".data, "pattern".data, "anti-pattern".data, "design pattern".data], "best_practices".data, "best_practices".data, 6⟩,
  ⟨["performance".data, "optimization".data, "bulkification".data], "best_practices".data, "best_practices".data, 6⟩,
  ⟨["release notes".data, "new feature".data, "summer".data, "winter".data, "spring".data], "release_notes".data, "release_notes".data, 8⟩]

/-- The `SYNONYMS` table of intent.ts. -/
def SYNONYMS : List (Str × List Str) := [
  ("lwc".data, ["lightning web component".data, "web component".data, "lightning-".data]),
  ("apex".data, ["salesforce apex".data, "apex class".data, "apex trigger".data]),
  ("trigger".data, ["apex trigger".data, "before trigger".data, "after trigger".data]),
  ("soql".data, ["salesforce query".data, "select from".data, "query".data]),
  ("rest api".data, ["restful api".data, "rest endpoint".data, "/services/data/".data]),
  ("bulk api".data, ["bulk 2.0".data, "bulk data load".data, "data loader api".data]),
  ("permission".data, ["permission set".data, "profile".data, "sharing rules".data]),
  ("deploy".data, ["deployment".data, "change set".data, "metadata deploy".data]),
  ("test".data, ["test class".data, "unit test".data, "apex test".data, "testmethod".data]),
  ("callout".data, ["http callout".data, "external callout".data, "web service".data]),
  ("authentication".data, ["oauth".data, "login".data, "sso".data, "connected app".data]),
  ("governor limits".data, ["limits".data, "dml limits".data, "soql limits".data])]

/-- The JavaScript `Map` key string `category:subcategory`. -/
def scoreKey (cat sub : Str) : Str := cat ++ ':' :: sub

/-- A value in the per-(category, subcategory) score map. -/
structure ScoreEntry where
  weight : Nat
  category : Str
  subcategory : Str
deriving DecidableEq

/-- The lookup `scores.get(key) || default` on the insertion-ordered map. -/
def mapGetOr (m : List (Str × ScoreEntry)) (k : Str) (d : ScoreEntry) : ScoreEntry :=
  match m.find? (fun e => e.1 = k) with
  | some e => e.2
  | none => d

/-- The update `scores.set(key, value)` on the insertion-ordered map (updates in
place, otherwise appends). -/
def mapSet (m : List (Str × ScoreEntry)) (k : Str) (v : ScoreEntry) : List (Str × ScoreEntry) :=
  if m.any (fun e => e.1 = k) then m.map (fun e => if e.1 = k then (k, v) else e)
  else m ++ [(k, v)]

/-- Loop body of `detectIntent`: count the pattern's trigger phrases
occurring in the lowercased query, and on at least one hit accumulate
`weight × matchCount` into the score map, the matched-phrase list, and
the running total. -/
def detectStep (queryLower : Str) (st : List (Str × ScoreEntry) × List Str × Nat)
    (pat : IntentPattern) : List (Str × ScoreEntry) × List Str × Nat :=
  let (scores, matched, total) := st
  let matchedKeywords := pat.keywords.filter (fun kw => jsIncludes queryLower (jsToLower kw))
  if matchedKeywords.length > 0 then
    let key := scoreKey pat.category pat.subcategory
    let existing := mapGetOr scores key ⟨0, pat.category, pat.subcategory⟩
    let updated : ScoreEntry :=
      ⟨existing.weight + pat.weight * matchedKeywords.length, existing.category, existing.subcategory⟩
    (mapSet scores key updated, matched ++ matchedKeywords, total + pat.weight * matchedKeywords.length)
  else st

/-- Highest-scoring entry under the strict `>` comparison (first writer
wins ties), scanning the score map in insertion order. -/
def bestOf (scores : List (Str × ScoreEntry)) : Option ScoreEntry :=
  scores.foldl (fun best e =>
    match best with
    | none => some e.2
    | some b => if e.2.weight > b.weight then some e.2 else some b) none

/-- Worker for `jsDedup`, carrying the set of values already seen. -/
def jsDedupAux (seen : List Str) : List Str → List Str
  | [] => []
  | x :: xs => if seen.contains x then jsDedupAux seen xs else x :: jsDedupAux (x :: seen) xs

/-- JavaScript `[...new Set(list)]`: deduplication keeping the first
occurrence of each value, in order. -/
def jsDedup (l : List Str) : List Str := jsDedupAux [] l

/-- Function `detectIntent` of intent.ts. -/
def detectIntent (query : Str) : DetectedIntent :=
  let queryLower := jsToLower query
  let st := INTENT_PATTERNS.foldl (detectStep queryLower) ([], [], 0)
  let best := bestOf st.1
  let confidence :=
    if st.2.2 ≥ 15 then Conf.high else if st.2.2 ≥ 7 then Conf.medium else Conf.low
  { category := best.map (fun b => b.category)
  , subcategory := best.map (fun b => b.subcategory)
  , confidence := confidence
  , matchedPatterns := jsDedup st.2.1
  , totalWeight := st.2.2 }

/-- The `categoryLabels` table of `describeIntent`. -/
def categoryLabels : List (Str × Str) := [
  ("core_platform".data, "Core Platform Development".data),
  ("apis".data, "API Reference".data),
  ("dev_tools".data, "Development Tools".data),
  ("clouds".data, "Cloud Products".data),
  ("security".data, "Security & Permissions".data),
  ("integration".data, "Integration Patterns".data),
  ("best_practices".data, "Best Practices".data),
  ("release_notes".data, "Release Notes".data)]

/-- The `subcategoryLabels` table of `describeIntent`. -/
def subcategoryLabels : List (Str × Str) := [
  ("apex".data, "Apex Development".data),
  ("lightning".data, "Lightning (LWC/Aura)".data),
  ("visualforce".data, "Visualforce".data),
  ("soql_sosl".data, "SOQL/SOSL Queries".data),
  ("formulas".data, "Formulas".data),
  ("rest_api".data, "REST API".data),
  ("soap_api".data, "SOAP API".data),
  ("metadata_api".data, "Metadata API".data),
  ("bulk_api".data, "Bulk API".data),
  ("streaming_api".data, "Streaming API".data),
  ("tooling_api".data, "Tooling API".data),
  ("specialized_apis".data, "Specialized APIs".data),
  ("sfdx_cli".data, "Salesforce CLI".data),
  ("packaging".data, "Packaging".data),
  ("devops".data, "DevOps".data),
  ("mobile_sdk".data, "Mobile SDK".data),
  ("security".data, "Security".data),
  ("integration".data, "Integration".data),
  ("sales_cloud".data, "Sales Cloud".data),
  ("service_cloud".data, "Service Cloud".data),
  ("experience_cloud".data, "Experience Cloud".data),
  ("marketing_cloud".data, "Marketing Cloud".data),
  ("analytics_cloud".data, "CRM Analytics".data),
  ("best_practices".data, "Best Practices".data),
  ("release_notes".data, "Release Notes".data)]

/-- The lookup `labels[key] || key` lookup. -/
def lookupOr (tbl : List (Str × Str)) (k : Str) : Str :=
  match tbl.find? (fun e => e.1 = k) with
  | some e => e.2
  | none => k

/-- Function `describeIntent` of intent.ts: a human-readable label for the
detected intent (JavaScript truthiness on the optional fields: a
missing or empty category counts as none). -/
def describeIntent (intent : DetectedIntent) : Str :=
  match intent.category with
  | none => ("General Salesforce documentation search").data
  | some cat =>
    if cat.isEmpty then ("General Salesforce documentation search").data
    else
      let categoryLabel := lookupOr categoryLabels cat
      let subcategoryLabel :=
        match intent.subcategory with
        | some sub => if sub.isEmpty then [] else lookupOr subcategoryLabels sub
        | none => []
      if subcategoryLabel ≠ [] ∧ subcategoryLabel ≠ categoryLabel then
        categoryLabel ++ (" - ").data ++ subcategoryLabel
      else categoryLabel

/-- The `categoryTerms` table of `getCategoryTerms` in intent.ts. -/
def categoryTermsTable : List (Str × List Str) := [
  ("apex".data, ["trigger".data, "class".data, "test".data, "governor limits".data, "batch".data, "future".data]),
  ("lightning".data, ["lwc".data, "@wire".data, "@api".data, "component".data, "aura".data, "lightning-".data]),
  ("visualforce".data, ["apex:page".data, "controller".data, "extension".data, "apex:form".data]),
  ("soql_sosl".data, ["SELECT".data, "FROM".data, "WHERE".data, "relationship".data, "aggregate".data]),
  ("rest_api".data, ["endpoint".data, "sobject".data, "composite".data, "JSON".data, "HTTP".data]),
  ("bulk_api".data, ["job".data, "batch".data, "CSV".data, "data load".data]),
  ("metadata_api".data, ["package.xml".data, "deploy".data, "retrieve".data, "manifest".data]),
  ("streaming_api".data, ["PushTopic".data, "CDC".data, "Platform Event".data, "subscribe".data]),
  ("tooling_api".data, ["ApexTestRun".data, "debug".data, "execute anonymous".data]),
  ("sfdx_cli".data, ["sf".data, "scratch org".data, "source push".data, "dev hub".data]),
  ("security".data, ["permission set".data, "sharing".data, "FLS".data, "profile".data, "oauth".data]),
  ("integration".data, ["callout".data, "HTTP".data, "external service".data, "named credential".data])]

/-- Function `getCategoryTerms` of intent.ts (`categoryTerms[subcategory] || []`). -/
def getCategoryTerms (subcategory : Str) : List Str :=
  match categoryTermsTable.find? (fun e => e.1 = subcategory) with
  | some e => e.2
  | none => []

/-- JavaScript `Array.prototype.join` with a separator. -/
def joinSep (sep : Str) : List Str → Str
  | [] => []
  | [x] => x
  | x :: y :: xs => x ++ sep ++ joinSep sep (y :: xs)

/-- The confidence sentence appended by `buildReasoning`. -/
def confMsg : Conf → Str
  | Conf.high => ("High confidence match - specific documentation area identified").data
  | Conf.medium => ("Medium confidence - multiple possible areas detected").data
  | Conf.low => ("Low confidence - broad search recommended").data

/-- Function `buildReasoning` of intent.ts (its `query` parameter is unused in
the source as well). -/
def buildReasoning (_query : Str) (intent : DetectedIntent) (concepts : List Str) : Str :=
  let parts1 : List Str :=
    if concepts.length > 0 then
      [("Detected concepts: ").data ++ joinSep ((", ").data) (concepts.take 5)]
    else []
  let parts2 :=
    match intent.category with
    | some cat => if cat.isEmpty then parts1 else parts1 ++ [("Suggested category: ").data ++ cat]
    | none => parts1
  let parts3 := parts2 ++ [confMsg intent.confidence]
  let joined := joinSep ((". ").data) parts3
  if joined.isEmpty then ("General search across all documentation").data else joined

/-- Function `expandQueryToKeywords` of intent.ts (the source's unused local
variables `queryLower`, `contextLower`, `combined` are omitted). -/
def expandQueryToKeywords (query : Str) (context : Option Str) : QueryExpansion :=
  let intent := detectIntent query
  let detectedConcepts := intent.matchedPatterns
  let expandedTerms1 := detectedConcepts.foldl (fun acc concept =>
    match SYNONYMS.find? (fun e => e.1 = jsToLower concept) with
    | some e => acc ++ e.2
    | none => acc) []
  let queryTerms := (splitWs query).filter (fun t => t.length > 2)
  let expandedTerms2 := expandedTerms1 ++ queryTerms
  let expandedTerms3 :=
    match context with
    | some ctx =>
      if ctx.isEmpty then expandedTerms2
      else expandedTerms2 ++ ((splitWs ctx).filter (fun t => t.length > 2)).take 5
    | none => expandedTerms2
  let expandedTerms4 :=
    match intent.subcategory with
    | some sub => if sub.isEmpty then expandedTerms3 else expandedTerms3 ++ getCategoryTerms sub
    | none => expandedTerms3
  { expandedTerms := (jsDedup expandedTerms4).take 20
  , detectedConcepts := jsDedup detectedConcepts
  , suggestedCategory := intent.category
  , confidence := intent.confidence
  , reasoning := buildReasoning query intent detectedConcepts }

/-- A row of the `chunks ⋈ documents` join that the search SQL reads:
all selected document columns plus the chunk columns. The `keywords`
column (a JSON-encoded string array in SQLite) is modelled directly as
the decoded list. -/
structure StoreRow where
  id : Nat
  fileName : Str
  filePath : Str
  category : Str
  subcategory : Option Str
  docType : Str
  title : Str
  description : Option Str
  keywords : List Str
  apiVersion : Option Str
  priority : Nat
  content : Str
  contentLower : Str
  sectionTitle : Option Str
  pageNumber : Option Nat
deriving DecidableEq

/-- Document metadata carried inside a search result. -/
structure DocMeta where
  id : Nat
  fileName : Str
  filePath : Str
  category : Str
  subcategory : Option Str
  docType : Str
  title : Str
  description : Option Str
  keywords : List Str
  apiVersion : Option Str
  priority : Nat
deriving DecidableEq

/-- The `detectedIntent` payload attached to results when an automatic
intent filter was applied. -/
structure IntentInfo where
  category : Option Str
  subcategory : Option Str
  confidence : Conf
  description : Str
deriving DecidableEq

/-- Structure `SearchResult` of queries.ts (scores over `ℚ`). -/
structure SearchResult where
  document : DocMeta
  chunk : Str
  score : ℚ
  matchDensity : ℚ
  sectionTitle : Option Str
  highlights : List Str
  detectedIntent : Option IntentInfo
deriving DecidableEq

/-- Structure `SearchOptions` of the search entry point. -/
structure SearchOptions where
  category : Option Str
  subcategory : Option Str
  maxResults : Option Nat
deriving DecidableEq

/-- JavaScript truthiness of an optional string (absent or empty is
falsy). -/
def optTruthy (o : Option Str) : Bool := o.any (fun s => !s.isEmpty)

/-- Function `sanitizeQuery` of queries.ts: truncate to 500 characters, strip
angle brackets, strip control characters, trim, double single quotes. -/
def sanitizeQuery (query : Str) : Str :=
  let q1 := query.take 500
  let q2 := q1.filter (fun c => c ≠ '<' && c ≠ '>')
  let q3 := q2.filter (fun c => !(c.toNat ≤ 0x1f))
  let q4 := jsTrim q3
  q4.flatMap (fun c => if c = '\'' then [c, c] else [c])

/-- Function `buildSearchPatterns` of queries.ts: lowercase, split on whitespace,
keep words longer than one character, wrap each in `%…%`. -/
def buildSearchPatterns (query : Str) : List Str :=
  let words := (splitWs (jsToLower query)).filter (fun w => w.length > 1)
  words.map (fun w => '%' :: (w ++ ['%']))

/-- The search terms used by the in-process scorer (same tokenization as
`buildSearchPatterns`). -/
def searchTermsOf (sq : Str) : List Str :=
  (splitWs (jsToLower sq)).filter (fun w => w.length > 1)

/-- Fuel-driven worker for `likeMatch`. -/
def likeMatchFuel : Nat → Str → Str → Bool
  | 0, _, _ => false
  | fuel + 1, pat, s =>
    match pat, s with
    | [], [] => true
    | [], _ :: _ => false
    | '%' :: ps, t =>
      likeMatchFuel fuel ps t
        || (match t with
            | [] => false
            | _ :: t2 => likeMatchFuel fuel ('%' :: ps) t2)
    | '_' :: ps, t =>
      (match t with
       | [] => false
       | _ :: t2 => likeMatchFuel fuel ps t2)
    | p :: ps, t =>
      (match t with
       | [] => false
       | c :: t2 => (Char.toLower p = Char.toLower c) && likeMatchFuel fuel ps t2)

/-- SQLite `LIKE`: `%` matches any sequence, `_` any single character,
other characters literally and ASCII-case-insensitively. -/
def likeMatch (pat s : Str) : Bool :=
  likeMatchFuel (pat.length + s.length + 1) pat s

/-- Function `extractHighlights` of queries.ts: for up to two query words found
in the content, a ±100 character context window with ellipses. -/
def extractHighlights (content : Str) (query : Str) : List Str :=
  if content.isEmpty then []
  else
    let words := (splitWs (jsToLower query)).filter (fun w => w.length > 2)
    let contentLower := jsToLower content
    words.foldl (fun highlights word =>
      if highlights.length ≥ 2 then highlights
      else
        match jsIndexOf contentLower word with
        | some index =>
          let start := index - 100
          let stop := min content.length (index + word.length + 100)
          let snippet := (content.drop start).take (stop - start)
          let snippet2 := if start > 0 then ("...").data ++ snippet else snippet
          let snippet3 := if stop < content.length then snippet2 ++ ("...").data else snippet2
          highlights ++ [snippet3]
        | none => highlights) []

/-- Per-chunk term statistics of the scoring loop: number of distinct
search terms contained in the lowercased content, and the total count
of their (non-overlapping regex) occurrences; terms not contained
contribute nothing. -/
def termStats (searchTerms : List Str) (contentLower : Str) : Nat × Nat :=
  searchTerms.foldl (fun (st : Nat × Nat) term =>
    if jsIncludes contentLower term then
      (st.1 + 1, st.2 + countOccurrences contentLower term)
    else st) (0, 0)

/-- Builds one scored `SearchResult` from a sampled row, mirroring the
scoring block of `executeSearch`: `matchDensity · 10 + priority · 0.2 +
min(totalOccurrences · 0.1, 2)`, with the source's `priority || 1`
fallback. -/
def mkResult (searchTerms : List Str) (sanitizedQuery : Str) (usedIntentFilter : Bool)
    (intent : DetectedIntent) (intentDescription : Str) (row : StoreRow) : SearchResult :=
  let priority := if row.priority = 0 then 1 else row.priority
  let stats := termStats searchTerms row.contentLower
  let matchDensity : ℚ :=
    if searchTerms.length > 0 then (stats.1 : ℚ) / (searchTerms.length : ℚ) else 0
  let relevanceScore : ℚ :=
    matchDensity * 10 + (priority : ℚ) * (2 / 10) + min ((stats.2 : ℚ) * (1 / 10)) 2
  { document :=
      { id := row.id
      , fileName := row.fileName
      , filePath := row.filePath
      , category := row.category
      , subcategory := row.subcategory
      , docType := row.docType
      , title := row.title
      , description := row.description
      , keywords := row.keywords
      , apiVersion := row.apiVersion
      , priority := priority }
  , chunk := row.content
  , score := relevanceScore
  , matchDensity := matchDensity
  , sectionTitle := row.sectionTitle
  , highlights := extractHighlights row.content sanitizedQuery
  , detectedIntent :=
      if usedIntentFilter then
        some ⟨intent.category, intent.subcategory, intent.confidence, intentDescription⟩
      else none }

/-- The SQL `WHERE` clause: some `LIKE` pattern hits the lowercase
content, and the category / subcategory equality filters are added
only when the corresponding argument is truthy (mirrors the dynamic
`if (category) … if (subcategory) …` SQL construction). -/
def rowMatches (patterns : List Str) (cat sub : Option Str) (row : StoreRow) : Bool :=
  patterns.any (fun p => likeMatch p row.contentLower)
    && (match cat with
        | some c => if c.isEmpty then true else row.category = c
        | none => true)
    && (match sub with
        | some s => if s.isEmpty then true else row.subcategory = some s
        | none => true)

/-- Priority-descending comparison on store rows. -/
def prioGE (a b : StoreRow) : Prop := b.priority ≤ a.priority

instance : DecidableRel prioGE :=
  fun a b => inferInstanceAs (Decidable (b.priority ≤ a.priority))

instance : IsTotal StoreRow prioGE := ⟨fun a b => Nat.le_total b.priority a.priority⟩

instance : IsTrans StoreRow prioGE := ⟨fun _ _ _ h1 h2 => le_trans h2 h1⟩

/-- The clause `ORDER BY d.priority DESC` (ties left in store order; the SQL engine
order among equal priorities is unspecified, a stable sort is one
admissible realization). -/
def sortByPriorityDesc (rows : List StoreRow) : List StoreRow :=
  rows.insertionSort prioGE

/-- Score-descending comparison on results (JavaScript's stable sort
under the `b.score - a.score` comparator places `a` before `b` exactly
when `b.score ≤ a.score`, keeping the original order on ties). -/
def scoreGE (a b : SearchResult) : Prop := b.score ≤ a.score

instance : DecidableRel scoreGE :=
  fun a b => inferInstanceAs (Decidable (b.score ≤ a.score))

instance : IsTotal SearchResult scoreGE := ⟨fun a b => le_total b.score a.score⟩

instance : IsTrans SearchResult scoreGE := ⟨fun _ _ _ h1 h2 => le_trans h2 h1⟩

/-- Function `executeSearch` of queries.ts over the modelled store: filter,
priority-order, cap at `sampleSize`, score each sampled row, and sort
by score descending with a stable sort. -/
def executeSearchModel (store : List StoreRow) (patterns searchTerms : List Str)
    (sanitizedQuery : Str) (usedIntentFilter : Bool) (intent : DetectedIntent)
    (intentDescription : Str) (cat sub : Option Str) (sampleSize : Nat) : List SearchResult :=
  let rows := (sortByPriorityDesc (store.filter (rowMatches patterns cat sub))).take sampleSize
  if rows.isEmpty then []
  else
    let results := rows.map (mkResult searchTerms sanitizedQuery usedIntentFilter intent intentDescription)
    results.insertionSort scoreGE

/-- The default `options.maxResults || 5` (a supplied zero is falsy and also falls
back to 5). -/
def effMaxResults (opts : SearchOptions) : Nat :=
  match opts.maxResults with
  | some n => if n = 0 then 5 else n
  | none => 5

/-- Filter resolution of `searchDocuments`: caller-supplied filters win;
otherwise, when the classifier is confident and detected a
subcategory, its category/subcategory become the effective filter and
the fact is recorded. -/
def resolveFilters (sq : Str) (opts : SearchOptions) : Option Str × Option Str × Bool :=
  let intent := detectIntent sq
  if !optTruthy opts.category && !optTruthy opts.subcategory
      && !(intent.confidence = Conf.low : Bool) && optTruthy intent.subcategory then
    (intent.category, intent.subcategory, true)
  else (opts.category, opts.subcategory, false)

/-- The body of the `try` block of `searchDocuments` on a cache miss
with a nonempty term list: the filtered attempt, then the two optional
widening attempts, each adopted only when strictly better. Also
returns the number of store queries executed. -/
def searchMiss (store : List StoreRow) (sq : Str) (opts : SearchOptions) :
    List SearchResult × Nat :=
  let intent := detectIntent sq
  let intentDescription := describeIntent intent
  let rf := resolveFilters sq opts
  let usedIntentFilter := rf.2.2
  let maxResults := effMaxResults opts
  let patterns := buildSearchPatterns sq
  let terms := searchTermsOf sq
  let isFiltered := optTruthy rf.1 || optTruthy rf.2.1
  let sampleSize := if isFiltered then max (maxResults * 10) 100 else max (maxResults * 50) 500
  let r0 := executeSearchModel store patterns terms sq usedIntentFilter intent
    intentDescription rf.1 rf.2.1 sampleSize
  if usedIntentFilter ∧ r0.length < maxResults then
    let r1 := executeSearchModel store patterns terms sq usedIntentFilter intent
      intentDescription rf.1 none sampleSize
    let rA := if r1.length > r0.length then r1 else r0
    if rA.length < maxResults then
      let r2 := executeSearchModel store patterns terms sq usedIntentFilter intent
        intentDescription none none 500
      (if r2.length > rA.length then r2 else rA, 3)
    else (rA, 2)
  else (r0, 1)

/-- The composite cache key: sanitized query, caller options, and the
resolved effective filters (models the `JSON.stringify` of exactly
these fields, which is injective on them). -/
abbrev CacheKey := Str × SearchOptions × Option Str × Option Str

/-- One entry of the result cache with its insertion time. -/
structure CacheEntry where
  key : CacheKey
  value : List SearchResult
  insertedAt : Nat
deriving DecidableEq

/-- The process-local result cache (`lru-cache` instance), modelled as
an entry list ordered by recency of insertion. -/
abbrev SearchCache := List CacheEntry

/-- Cache time-to-live: 5 minutes in milliseconds. -/
def CACHE_TTL : Nat := 1000 * 60 * 5

/-- Cache capacity bound. -/
def CACHE_MAX : Nat := 500

/-- Cache lookup at time `now`: a stored value is returned while its age
is at most the TTL. -/
def cacheGet (c : SearchCache) (k : CacheKey) (now : Nat) : Option (List SearchResult) :=
  match c.find? (fun e => e.key = k) with
  | some e => if now ≤ e.insertedAt + CACHE_TTL then some e.value else none
  | none => none

/-- Cache insertion at time `now`: replaces any entry with the same key
and evicts beyond the capacity bound. -/
def cacheSet (c : SearchCache) (k : CacheKey) (v : List SearchResult) (now : Nat) : SearchCache :=
  (⟨k, v, now⟩ :: c.filter (fun e => e.key ≠ k)).take CACHE_MAX

/-- Function `searchDocuments` of queries.ts as a pure state-passing function:
sanitize, resolve filters, consult the cache, short-circuit an empty
pattern list, otherwise run the (possibly widened) search, truncate to
`maxResults`, and cache. The returned `Nat` counts the store queries
executed by the call. -/
def searchDocuments (store : List StoreRow) (cache : SearchCache) (now : Nat)
    (query : Str) (opts : SearchOptions) : List SearchResult × SearchCache × Nat :=
  let sq := sanitizeQuery query
  let rf := resolveFilters sq opts
  let key : CacheKey := (sq, opts, rf.1, rf.2.1)
  match cacheGet cache key now with
  | some cached => (cached, cache, 0)
  | none =>
    let patterns := buildSearchPatterns sq
    if patterns.isEmpty then ([], cache, 0)
    else
      let r := searchMiss store sq opts
      let top := r.1.take (effMaxResults opts)
      (top, cacheSet cache key top now, r.2)

/-- Input to the index builder for one PDF: file name and the extracted,
cleaned text (PDF parsing and text cleaning happen before the indexing
steps modelled here). -/
structure PdfInput where
  fileName : Str
  text : Str
deriving DecidableEq

/-- A persisted chunk row produced by the builder. -/
structure ChunkRow where
  documentId : Nat
  chunkIndex : Nat
  content : Str
  contentLower : Str
  sectionTitle : Option Str
deriving DecidableEq

/-- The persisted index artifact: the in-memory database that
`db.export()` serializes (documents as `(id, fileName)` pairs plus the
chunk rows; further document columns do not affect when the artifact
file is written or removed). -/
structure Artifact where
  documents : List (Nat × Str)
  chunks : List ChunkRow
deriving DecidableEq

/-- Function `processPdf` of build-index.ts acting on the in-memory database:
skip files whose text is shorter than 100 characters, otherwise insert
one document row and one chunk row per chunk of `chunkText(text,
{maxChunkSize: 1500, overlapSize: 150})` whose content is longer than
50 characters, with the precomputed lowercase mirror. -/
def processPdfModel (art : Artifact) (p : PdfInput) : Artifact :=
  if p.text.length < 100 then art
  else
    let documentId := art.documents.length + 1
    let kept := (chunkText p.text 1500 150).filter (fun c => c.content.length > 50)
    { documents := art.documents ++ [(documentId, p.fileName)]
    , chunks := art.chunks ++ kept.map (fun c =>
        ⟨documentId, c.index, c.content, jsToLower c.content, c.sectionTitle⟩) }

/-- The whole in-memory build over the PDF list. -/
def buildArtifact (pdfs : List PdfInput) : Artifact :=
  pdfs.foldl processPdfModel ⟨[], []⟩

/-- File-system events of a `buildIndex` run that touch the persisted
index artifact path: deleting it, per-file processing steps (which
perform no writes to the artifact path), and the final whole-file
write. -/
inductive FsEvent
  | unlinkDb
  | processPdf (fileName : Str)
  | writeDb (art : Artifact)
deriving DecidableEq

/-- The ordered event trace of one `buildIndex` run: the existing
database file is deleted first (when present), every PDF is processed
into the in-memory database, and the export is written to the artifact
path as the final step. -/
def buildIndexEvents (dbExists : Bool) (pdfs : List PdfInput) : List FsEvent :=
  (if dbExists then [FsEvent.unlinkDb] else [])
    ++ pdfs.map (fun p => FsEvent.processPdf p.fileName)
    ++ [FsEvent.writeDb (buildArtifact pdfs)]

/-- Effect of one event on the artifact path (`none` means no persisted
index file). -/
def applyFsEvent (fs : Option Artifact) : FsEvent → Option Artifact
  | FsEvent.unlinkDb => none
  | FsEvent.processPdf _ => fs
  | FsEvent.writeDb a => some a

/-- State of the artifact path after a sequence of events; a run that
fails mid-build executes a proper prefix of the full trace. -/
def applyFsEvents (fs : Option Artifact) (evs : List FsEvent) : Option Artifact :=
  evs.foldl applyFsEvent fs

/-- Total classifier weight as the specification states it: the sum
over all patterns of `weight × (number of the pattern's trigger
phrases occurring case-insensitively in the query)`. Stated
independently of `detectIntent` to be compared with it. -/
def totalWeightSpec (query : Str) : Nat :=
  (INTENT_PATTERNS.map (fun pat =>
    pat.weight * (pat.keywords.filter (fun kw =>
      jsIncludes (jsToLower query) (jsToLower kw))).length)).sum

/-- The relevance formula as the specification states it:
`10·matchDensity + 0.2·documentPriority + min(0.1·totalOccurrences, 2)`
with `matchDensity` the fraction of query terms contained in the chunk
and `totalOccurrences` summed over all query terms. Stated
independently of `executeSearch` to be compared with it. -/
def scoreSpec (terms : List Str) (contentLower : Str) (priority : Nat) : ℚ :=
  let p := if priority = 0 then 1 else priority
  let found := (terms.filter (fun t => jsIncludes contentLower t)).length
  let density : ℚ := if terms.length > 0 then (found : ℚ) / (terms.length : ℚ) else 0
  let totalOcc := (terms.map (fun t => countOccurrences contentLower t)).sum
  density * 10 + (p : ℚ) * (2 / 10) + min ((totalOcc : ℚ) * (1 / 10)) 2

/-- The match-density fraction as the specification states it. -/
def densitySpec (terms : List Str) (contentLower : Str) : ℚ :=
  let found := (terms.filter (fun t => jsIncludes contentLower t)).length
  if terms.length > 0 then (found : ℚ) / (terms.length : ℚ) else 0

/-- The cache key `searchDocuments` computes for a call. -/
def cacheKeyFor (query : Str) (opts : SearchOptions) : CacheKey :=
  let sq := sanitizeQuery query
  let rf := resolveFilters sq opts
  (sq, opts, rf.1, rf.2.1)

/-- The result list a cache-miss computation produces for a call:
empty on an empty pattern list, otherwise the (possibly widened)
search truncated to `maxResults`. -/
def canonicalResult (store : List StoreRow) (query : Str) (opts : SearchOptions) :
    List SearchResult :=
  let sq := sanitizeQuery query
  if (buildSearchPatterns sq).isEmpty then []
  else (searchMiss store sq opts).1.take (effMaxResults opts)

/-- The first (intent- or caller-filtered) search attempt of
`searchMiss`, named so theorems can compare the final result against
it. -/
def firstAttempt (store : List StoreRow) (sq : Str) (opts : SearchOptions) :
    List SearchResult :=
  let intent := detectIntent sq
  let rf := resolveFilters sq opts
  let maxResults := effMaxResults opts
  let isFiltered := optTruthy rf.1 || optTruthy rf.2.1
  let sampleSize := if isFiltered then max (maxResults * 10) 100 else max (maxResults * 50) 500
  executeSearchModel store (buildSearchPatterns sq) (searchTermsOf sq) sq rf.2.2 intent
    (describeIntent intent) rf.1 rf.2.1 sampleSize

/-- Invariant of every reachable cache state: entries exist only for
keys whose sanitized query tokenizes to a nonempty term list, and hold
exactly the truncated miss-computation result for their key (the cache
is only ever populated by `searchDocuments` itself). -/
def CacheWF (store : List StoreRow) (c : SearchCache) : Prop :=
  ∀ e ∈ c, searchTermsOf e.key.1 ≠ [] ∧
    e.value = (searchMiss store e.key.1 e.key.2.1).1.take (effMaxResults e.key.2.1)

/-- A concrete store row used to instantiate search theorems. -/
def sampleRow : StoreRow :=
  ⟨1, ("guide.pdf").data, ("docs/guide.pdf").data, ("core_platform").data,
   some (("apex").data), ("developer_guide").data, ("Guide").data, none, [], none, 5,
   ("hello world").data, ("hello world").data, none, none⟩

/-- A concrete PDF input used to instantiate builder theorems. -/
def samplePdf : PdfInput := ⟨("a.pdf").data, []⟩

/-- A concrete previously-persisted artifact used to instantiate builder
theorems. -/
def sampleArtifact : Artifact := ⟨[(1, ("old.pdf").data)], []⟩

theorem detectFold_totalWeight (ql : Str) (l : List IntentPattern) :
    ∀ (s : List (Str × ScoreEntry)) (m : List Str) (t : Nat),
    (List.foldl (detectStep ql) (s, m, t) l).2.2
      = t + (l.map (fun pat =>
          pat.weight * (pat.keywords.filter (fun kw =>
            jsIncludes ql (jsToLower kw))).length)).sum := by
  induction l with
  | nil => intro s m t; simp
  | cons p l ih =>
    intro s m t
    simp only [List.foldl_cons, List.map_cons, List.sum_cons, detectStep]
    by_cases h : (p.keywords.filter (fun kw => jsIncludes ql (jsToLower kw))).length > 0
    · rw [if_pos h, ih]
      ring
    · rw [if_neg h, ih]
      have hz : (List.filter (fun kw => jsIncludes ql (jsToLower kw)) p.keywords).length = 0 :=
        Nat.eq_zero_of_not_pos h
      rw [hz, Nat.mul_zero, Nat.zero_add]

theorem detectIntent_totalWeight (q : Str) :
    (detectIntent q).totalWeight = totalWeightSpec q := by
  simp only [detectIntent, totalWeightSpec]
  rw [detectFold_totalWeight]
  simp

/-- C5: the intent classifier's confidence tier is determined by the
total weight accumulated across all matched patterns (each pattern
contributing `weight × number of its trigger phrases occurring
case-insensitively in the query`): total ≥ 15 gives high, ≥ 7 medium,
otherwise low; and the query `"batch apex queueable"` classifies to
subcategory `"apex"` with confidence `high`. -/
theorem intent_confidence_from_total_weight :
    (∀ q : Str,
      (detectIntent q).totalWeight = totalWeightSpec q ∧
      (detectIntent q).confidence =
        (if totalWeightSpec q ≥ 15 then Conf.high
         else if totalWeightSpec q ≥ 7 then Conf.medium else Conf.low))
    ∧ (detectIntent (("batch apex queueable").data)).subcategory = some (("apex").data)
    ∧ (detectIntent (("batch apex queueable").data)).confidence = Conf.high := by
  refine ⟨fun q => ⟨detectIntent_totalWeight q, ?_⟩, by decide, by decide⟩
  have h := detectIntent_totalWeight q
  simp only [detectIntent] at h ⊢
  rw [h]

theorem jsDedupAux_not_mem_seen :
    ∀ (l seen : List Str) (a : Str), a ∈ jsDedupAux seen l → a ∉ seen := by
  intro l
  induction l with
  | nil => intro seen a h; simp [jsDedupAux] at h
  | cons x xs ih =>
    intro seen a h
    simp only [jsDedupAux] at h
    by_cases hx : seen.contains x
    · rw [if_pos hx] at h
      exact ih seen a h
    · rw [if_neg hx] at h
      rcases List.mem_cons.1 h with rfl | h2
      · intro hmem
        exact hx (List.elem_eq_true_of_mem hmem)
      · intro hmem
        exact ih (x :: seen) a h2 (List.mem_cons_of_mem x hmem)

theorem jsDedupAux_nodup : ∀ (l seen : List Str), (jsDedupAux seen l).Nodup := by
  intro l
  induction l with
  | nil => intro seen; simp [jsDedupAux]
  | cons x xs ih =>
    intro seen
    simp only [jsDedupAux]
    by_cases hx : seen.contains x
    · rw [if_pos hx]; exact ih seen
    · rw [if_neg hx]
      refine List.nodup_cons.2 ⟨fun hmem => ?_, ih (x :: seen)⟩
      exact jsDedupAux_not_mem_seen xs (x :: seen) x hmem (List.mem_cons_self x seen)

theorem jsDedup_nodup (l : List Str) : (jsDedup l).Nodup :=
  jsDedupAux_nodup l []

/-- C8: the query expander is total (a plain function in the model) and
always returns a deduplicated expansion of at most 20 terms, together
with the classifier's suggested category and confidence tier. -/
theorem query_expander_contract :
    ∀ (q : Str) (c : Option Str),
      (expandQueryToKeywords q c).expandedTerms.Nodup
      ∧ (expandQueryToKeywords q c).expandedTerms.length ≤ 20
      ∧ (expandQueryToKeywords q c).detectedConcepts.Nodup
      ∧ (expandQueryToKeywords q c).suggestedCategory = (detectIntent q).category
      ∧ (expandQueryToKeywords q c).confidence = (detectIntent q).confidence := by
  intro q c
  have htake : ∀ l : List Str, ((jsDedup l).take 20).length ≤ 20 := by
    intro l
    rw [List.length_take]
    exact min_le_left _ _
  refine ⟨?_, ?_, ?_, rfl, rfl⟩
  · exact (List.take_sublist _ _).nodup (jsDedup_nodup _)
  · exact htake _
  · exact jsDedup_nodup _

theorem buildSearchPatterns_empty_iff (q : Str) :
    (buildSearchPatterns q).isEmpty = true ↔ searchTermsOf q = [] := by
  simp [buildSearchPatterns, searchTermsOf, List.isEmpty_iff]

theorem searchDocuments_eq_match (store : List StoreRow) (cache : SearchCache)
    (now : Nat) (q : Str) (opts : SearchOptions) :
    searchDocuments store cache now q opts =
      (match cacheGet cache (cacheKeyFor q opts) now with
       | some cached => (cached, cache, 0)
       | none =>
         if (buildSearchPatterns (sanitizeQuery q)).isEmpty then ([], cache, 0)
         else
           ((searchMiss store (sanitizeQuery q) opts).1.take (effMaxResults opts),
            cacheSet cache (cacheKeyFor q opts)
              ((searchMiss store (sanitizeQuery q) opts).1.take (effMaxResults opts)) now,
            (searchMiss store (sanitizeQuery q) opts).2)) := rfl

theorem cacheGet_canonical {store : List StoreRow} {cache : SearchCache}
    {now : Nat} {q : Str} {opts : SearchOptions} {v : List SearchResult}
    (hwf : CacheWF store cache)
    (h : cacheGet cache (cacheKeyFor q opts) now = some v) :
    v = canonicalResult store q opts ∧ searchTermsOf (sanitizeQuery q) ≠ [] := by
  unfold cacheGet at h
  cases hf : cache.find? (fun e => e.key = cacheKeyFor q opts) with
  | none => rw [hf] at h; simp at h
  | some e =>
    rw [hf] at h
    have he := List.mem_of_find?_eq_some hf
    have hkey : e.key = cacheKeyFor q opts := by
      have := List.find?_some hf
      simpa using this
    obtain ⟨ht, hv⟩ := hwf e he
    have h1 : e.key.1 = sanitizeQuery q := by rw [hkey]; rfl
    have h2 : e.key.2.1 = opts := by rw [hkey]; rfl
    rw [h1] at ht
    change (if now ≤ e.insertedAt + CACHE_TTL then some e.value else none) = some v at h
    by_cases hfresh : now ≤ e.insertedAt + CACHE_TTL
    · rw [if_pos hfresh] at h
      refine ⟨?_, ht⟩
      cases h
      rw [hv, h1, h2]
      unfold canonicalResult
      rw [if_neg ?hne]
      case hne =>
        intro hp
        exact ht ((buildSearchPatterns_empty_iff _).1 hp)
    · rw [if_neg hfresh] at h
      cases h

theorem searchDocuments_results_eq (store : List StoreRow) (cache : SearchCache)
    (now : Nat) (q : Str) (opts : SearchOptions) (hwf : CacheWF store cache) :
    (searchDocuments store cache now q opts).1 = canonicalResult store q opts := by
  rw [searchDocuments_eq_match]
  cases h : cacheGet cache (cacheKeyFor q opts) now with
  | some v => simpa using (cacheGet_canonical hwf h).1
  | none =>
    by_cases hp : (buildSearchPatterns (sanitizeQuery q)).isEmpty
    · simp [hp, canonicalResult]
    · simp [hp, canonicalResult]

theorem searchDocuments_preserves_WF (store : List StoreRow) (cache : SearchCache)
    (now : Nat) (q : Str) (opts : SearchOptions) (hwf : CacheWF store cache) :
    CacheWF store (searchDocuments store cache now q opts).2.1 := by
  rw [searchDocuments_eq_match]
  cases h : cacheGet cache (cacheKeyFor q opts) now with
  | some v => simpa using hwf
  | none =>
    by_cases hp : (buildSearchPatterns (sanitizeQuery q)).isEmpty
    · simpa [hp] using hwf
    · simp only [hp, if_neg, Bool.false_eq_true, if_false]
      intro e he
      have he2 := (List.take_sublist _ _).subset he
      rcases List.mem_cons.1 he2 with rfl | hmem
      · refine ⟨?_, rfl⟩
        intro hts
        exact hp ((buildSearchPatterns_empty_iff _).2 hts)
      · exact hwf e (List.mem_of_mem_filter hmem)

/-- C2: a query whose sanitized form tokenizes to an empty term list
returns the empty result list at once, leaves the cache untouched, and
executes zero store queries. -/
theorem empty_query_no_storage (store : List StoreRow) (cache : SearchCache) (now : Nat)
    (q : Str) (opts : SearchOptions)
    (hterms : searchTermsOf (sanitizeQuery q) = [])
    (hwf : CacheWF store cache) :
    searchDocuments store cache now q opts = ([], cache, 0) := by
  rw [searchDocuments_eq_match]
  have hnone : cacheGet cache (cacheKeyFor q opts) now = none := by
    cases h : cacheGet cache (cacheKeyFor q opts) now with
    | none => rfl
    | some v => exact absurd hterms (cacheGet_canonical hwf h).2
  rw [hnone]
  have hp : (buildSearchPatterns (sanitizeQuery q)).isEmpty = true :=
    (buildSearchPatterns_empty_iff _).2 hterms
  simp [hp]

/-- Witness for C2 at the empty and the all-whitespace query against a
nonempty store and an empty cache. -/
theorem empty_query_no_storage_witness :
    searchDocuments [sampleRow] [] 0 [] ⟨none, none, none⟩ = ([], [], 0)
    ∧ searchDocuments [sampleRow] [] 0 [' ', ' ', ' '] ⟨none, none, none⟩ = ([], [], 0) :=
  ⟨empty_query_no_storage [sampleRow] [] 0 [] ⟨none, none, none⟩ (by decide)
      (by intro e he; exact absurd he (List.not_mem_nil e)),
   empty_query_no_storage [sampleRow] [] 0 [' ', ' ', ' '] ⟨none, none, none⟩ (by decide)
      (by intro e he; exact absurd he (List.not_mem_nil e))⟩

/-- C10 counterexample: with `maxResults = 0` supplied, the falsy-default
`options.maxResults || 5` yields one result on a one-row store, so the
returned count exceeds the supplied bound 0. -/
theorem maxresults_zero_counterexample :
    ¬ ((searchDocuments [sampleRow] [] 0 (("hello").data) ⟨none, none, some 0⟩).1.length ≤ 0) := by
  have h : (searchDocuments [sampleRow] [] 0 (("hello").data) ⟨none, none, some 0⟩).1.length = 1 := by
    with_unfolding_all rfl
  omega

/-- C10 (amended): on every path — cache hit, empty-term short-circuit,
filtered, widened or unfiltered computation — search returns at most
`maxResults` results when `maxResults` is supplied positive, and at
most 5 when it is absent or zero (the source's `|| 5` default). -/
theorem search_result_count_bound (store : List StoreRow) (cache : SearchCache)
    (now : Nat) (q : Str) (opts : SearchOptions) (hwf : CacheWF store cache) :
    (searchDocuments store cache now q opts).1.length ≤ effMaxResults opts := by
  rw [searchDocuments_results_eq store cache now q opts hwf]
  unfold canonicalResult
  by_cases hp : (buildSearchPatterns (sanitizeQuery q)).isEmpty
  · simp [hp]
  · simp only [hp, Bool.false_eq_true, if_false]
    rw [List.length_take]
    exact min_le_left _ _

/-- Witness for C10 with an empty cache and default options. -/
theorem search_result_count_bound_witness :
    (searchDocuments [sampleRow] [] 0 (("apex").data) ⟨none, none, none⟩).1.length ≤ 5 :=
  search_result_count_bound [sampleRow] [] 0 (("apex").data) ⟨none, none, none⟩
    (by intro e he; exact absurd he (List.not_mem_nil e))

theorem cacheGet_cacheSet_same (c : SearchCache) (k : CacheKey) (v : List SearchResult)
    (now t2 : Nat) (h : t2 ≤ now + CACHE_TTL) :
    cacheGet (cacheSet c k v now) k t2 = some v := by
  unfold cacheGet cacheSet
  rw [show CACHE_MAX = 499 + 1 from rfl, List.take_succ_cons]
  rw [List.find?_cons_of_pos _ (by simp)]
  simp [h]

/-- C9: under the reachable-cache invariant, two identical
`search(query, options)` calls return identical result lists; moreover
when the first call was a genuine miss with a nonempty term list, the
second call within the TTL window hits the cache and receives the
previously computed top-`maxResults` list verbatim. -/
theorem cache_transparency (store : List StoreRow) (cache : SearchCache)
    (t t2 : Nat) (q : Str) (opts : SearchOptions) (hwf : CacheWF store cache)
    (hfresh : t2 ≤ t + CACHE_TTL) :
    ((searchDocuments store (searchDocuments store cache t q opts).2.1 t2 q opts).1
       = (searchDocuments store cache t q opts).1)
    ∧ (cacheGet cache (cacheKeyFor q opts) t = none →
        searchTermsOf (sanitizeQuery q) ≠ [] →
        cacheGet (searchDocuments store cache t q opts).2.1 (cacheKeyFor q opts) t2
          = some (searchDocuments store cache t q opts).1) := by
  constructor
  · rw [searchDocuments_results_eq store _ t2 q opts
        (searchDocuments_preserves_WF store cache t q opts hwf),
      searchDocuments_results_eq store cache t q opts hwf]
  · intro hmiss hterms
    have hp : ¬ ((buildSearchPatterns (sanitizeQuery q)).isEmpty = true) := by
      intro h
      exact hterms ((buildSearchPatterns_empty_iff _).1 h)
    rw [searchDocuments_eq_match, hmiss]
    simp only [hp, Bool.false_eq_true, if_false]
    exact cacheGet_cacheSet_same cache (cacheKeyFor q opts) _ t t2 hfresh

/-- Witness for C9: two identical calls starting from the empty cache. -/
theorem cache_transparency_witness :
    (searchDocuments [sampleRow]
        (searchDocuments [sampleRow] [] 0 (("apex").data) ⟨none, none, none⟩).2.1
        1 (("apex").data) ⟨none, none, none⟩).1
      = (searchDocuments [sampleRow] [] 0 (("apex").data) ⟨none, none, none⟩).1 :=
  (cache_transparency [sampleRow] [] 0 1 (("apex").data) ⟨none, none, none⟩
    (by intro e he; exact absurd he (List.not_mem_nil e)) (by decide)).1

/-- C6: when the automatic intent filter was applied and the filtered
attempt returned fewer than `maxResults` results, each widening stage
is adopted only when strictly better, so the final (and the truncated)
result count never falls below the intent-filtered attempt's count,
and the filtered attempt itself is kept unless a wider scope is
strictly better. -/
theorem fallback_monotone (store : List StoreRow) (sq : Str) (opts : SearchOptions)
    (hused : (resolveFilters sq opts).2.2 = true)
    (hlt : (firstAttempt store sq opts).length < effMaxResults opts) :
    ((firstAttempt store sq opts).length ≤ (searchMiss store sq opts).1.length)
    ∧ ((firstAttempt store sq opts).length
        ≤ ((searchMiss store sq opts).1.take (effMaxResults opts)).length)
    ∧ ((searchMiss store sq opts).1 = firstAttempt store sq opts
        ∨ (firstAttempt store sq opts).length < (searchMiss store sq opts).1.length) := by
  have hmain :
      ((firstAttempt store sq opts).length ≤ (searchMiss store sq opts).1.length)
      ∧ ((searchMiss store sq opts).1 = firstAttempt store sq opts
          ∨ (firstAttempt store sq opts).length < (searchMiss store sq opts).1.length) := by
    simp only [firstAttempt, hused] at hlt
    simp only [searchMiss, firstAttempt, hused, true_and]
    rw [if_pos hlt]
    split_ifs <;> simp_all <;> omega
  refine ⟨hmain.1, ?_, hmain.2⟩
  rw [List.length_take]
  have h1 := hmain.1
  omega

/-- Witness for C6: an intent-classified query against an empty store
(the filtered attempt yields 0 < 5 results). -/
theorem fallback_monotone_witness :
    (firstAttempt [] (("apex trigger").data) ⟨none, none, none⟩).length
      ≤ (searchMiss [] (("apex trigger").data) ⟨none, none, none⟩).1.length := by
  have h0 : (firstAttempt ([] : List StoreRow) (("apex trigger").data)
      ⟨none, none, none⟩).length = 0 := by
    with_unfolding_all rfl
  exact (fallback_monotone [] (("apex trigger").data) ⟨none, none, none⟩ (by decide)
    (by rw [h0]; decide)).1

theorem jsIndexOf_isSome (hay needle : Str) :
    (jsIndexOf hay needle).isSome = jsIncludes hay needle := by
  induction hay with
  | nil =>
    simp only [jsIndexOf, jsIncludes]
    cases h : hasPref [] needle <;> simp [h]
  | cons c t ih =>
    by_cases h : hasPref (c :: t) needle
    · simp [jsIndexOf, jsIncludes, h]
    · simp [jsIndexOf, jsIncludes, h, ih]

theorem countOccurrences_eq_zero {hay needle : Str}
    (h : jsIncludes hay needle = false) : countOccurrences hay needle = 0 := by
  have h2 := jsIndexOf_isSome hay needle
  rw [h] at h2
  have hnone : jsIndexOf hay needle = none := by
    cases hopt : jsIndexOf hay needle with
    | none => rfl
    | some i => rw [hopt] at h2; simp at h2
  simp [countOccurrences, countOccFuel, hnone]

theorem termStats_go (cl : Str) (l : List Str) :
    ∀ a b : Nat,
    List.foldl (fun (st : Nat × Nat) term =>
        if jsIncludes cl term then (st.1 + 1, st.2 + countOccurrences cl term) else st) (a, b) l
      = (a + (l.filter (fun t => jsIncludes cl t)).length,
         b + (l.map (fun t => countOccurrences cl t)).sum) := by
  induction l with
  | nil => intro a b; simp
  | cons x xs ih =>
    intro a b
    by_cases h : jsIncludes cl x
    · simp only [List.foldl_cons, h, if_true]
      rw [ih]
      simp [h]
      omega
    · have hf : jsIncludes cl x = false := by simpa using h
      simp only [List.foldl_cons, hf, Bool.false_eq_true, if_false]
      rw [ih]
      have hz : countOccurrences cl x = 0 := countOccurrences_eq_zero hf
      simp [hf, hz]

theorem termStats_eq (terms : List Str) (cl : Str) :
    termStats terms cl
      = ((terms.filter (fun t => jsIncludes cl t)).length,
         (terms.map (fun t => countOccurrences cl t)).sum) := by
  unfold termStats
  rw [termStats_go]
  simp

theorem mkResult_fields (terms : List Str) (sq : Str) (used : Bool)
    (intent : DetectedIntent) (desc : Str) (row : StoreRow) :
    (mkResult terms sq used intent desc row).chunk = row.content
    ∧ (mkResult terms sq used intent desc row).matchDensity = densitySpec terms row.contentLower
    ∧ (mkResult terms sq used intent desc row).score = scoreSpec terms row.contentLower row.priority := by
  refine ⟨rfl, ?_, ?_⟩
  · simp [mkResult, densitySpec, termStats_eq]
  · simp [mkResult, scoreSpec, termStats_eq]

theorem executeSearchModel_mem (store : List StoreRow) (patterns terms : List Str)
    (sq : Str) (used : Bool) (intent : DetectedIntent) (desc : Str)
    (cat sub : Option Str) (n : Nat) :
    ∀ r ∈ executeSearchModel store patterns terms sq used intent desc cat sub n,
      ∃ row ∈ store, r = mkResult terms sq used intent desc row := by
  intro r hr
  simp only [executeSearchModel] at hr
  split at hr
  · exact absurd hr (List.not_mem_nil r)
  · have hr2 := (List.perm_insertionSort scoreGE _).mem_iff.1 hr
    obtain ⟨row, hrow, rfl⟩ := List.mem_map.1 hr2
    refine ⟨row, ?_, rfl⟩
    have h2 : row ∈ sortByPriorityDesc (store.filter (rowMatches patterns cat sub)) :=
      (List.take_sublist _ _).subset hrow
    have h3 : row ∈ store.filter (rowMatches patterns cat sub) :=
      (List.perm_insertionSort prioGE _).mem_iff.1 h2
    exact List.mem_of_mem_filter h3

theorem executeSearchModel_sorted (store : List StoreRow) (patterns terms : List Str)
    (sq : Str) (used : Bool) (intent : DetectedIntent) (desc : Str)
    (cat sub : Option Str) (n : Nat) :
    List.Sorted scoreGE (executeSearchModel store patterns terms sq used intent desc cat sub n) := by
  simp only [executeSearchModel]
  split
  · exact List.sorted_nil
  · exact List.sorted_insertionSort scoreGE _

theorem searchMiss_cases (store : List StoreRow) (sq : Str) (opts : SearchOptions) :
    ∃ cat sub n, (searchMiss store sq opts).1
      = executeSearchModel store (buildSearchPatterns sq) (searchTermsOf sq) sq
          (resolveFilters sq opts).2.2 (detectIntent sq) (describeIntent (detectIntent sq))
          cat sub n := by
  simp only [searchMiss]
  split_ifs <;> exact ⟨_, _, _, rfl⟩

/-- C7: every returned result's score is
`10·matchDensity + 0.2·documentPriority + min(0.1·totalOccurrences, 2)`
— with `matchDensity` the fraction of query terms contained in the
chunk's lowercase mirror and `totalOccurrences` the total
(non-overlapping) occurrence count over all query terms — and the
returned list is sorted by score in descending order, on every path. -/
theorem search_scoring (store : List StoreRow) (cache : SearchCache) (now : Nat)
    (q : Str) (opts : SearchOptions) (hwf : CacheWF store cache) :
    (∀ r ∈ (searchDocuments store cache now q opts).1,
      ∃ row ∈ store, r.chunk = row.content
        ∧ r.matchDensity = densitySpec (searchTermsOf (sanitizeQuery q)) row.contentLower
        ∧ r.score = scoreSpec (searchTermsOf (sanitizeQuery q)) row.contentLower row.priority)
    ∧ List.Sorted scoreGE (searchDocuments store cache now q opts).1 := by
  rw [searchDocuments_results_eq store cache now q opts hwf]
  unfold canonicalResult
  by_cases hp : (buildSearchPatterns (sanitizeQuery q)).isEmpty
  · simp [hp]
  · simp only [hp, Bool.false_eq_true, if_false]
    obtain ⟨cat, sub, n, hcase⟩ := searchMiss_cases store (sanitizeQuery q) opts
    rw [hcase]
    constructor
    · intro r hr
      have hr2 := (List.take_sublist _ _).subset hr
      obtain ⟨row, hrow, rfl⟩ := executeSearchModel_mem store _ _ _ _ _ _ cat sub n r hr2
      obtain ⟨h1, h2, h3⟩ := mkResult_fields (searchTermsOf (sanitizeQuery q)) (sanitizeQuery q)
        (resolveFilters (sanitizeQuery q) opts).2.2 (detectIntent (sanitizeQuery q))
        (describeIntent (detectIntent (sanitizeQuery q))) row
      exact ⟨row, hrow, h1, h2, h3⟩
    · exact List.Pairwise.sublist (List.take_sublist _ _)
        (executeSearchModel_sorted store _ _ _ _ _ _ cat sub n)

/-- Witness for C7 with a one-row store and an empty cache. -/
theorem search_scoring_witness :
    List.Sorted scoreGE (searchDocuments [sampleRow] [] 0 (("apex").data)
      ⟨none, none, none⟩).1 :=
  (search_scoring [sampleRow] [] 0 (("apex").data) ⟨none, none, none⟩
    (by intro e he; exact absurd he (List.not_mem_nil e))).2

theorem applyFsEvents_markers :
    ∀ (q : List FsEvent) (fs : Option Artifact),
      (∀ e ∈ q, ∃ nm, e = FsEvent.processPdf nm) → applyFsEvents fs q = fs := by
  intro q
  induction q with
  | nil => intro fs _; rfl
  | cons e q ih =>
    intro fs h
    obtain ⟨nm, rfl⟩ := h e (List.mem_cons_self e q)
    exact ih fs (fun x hx => h x (List.mem_cons_of_mem _ hx))

/-- C1 counterexample: with a previously persisted artifact present, the
one-event proper prefix of the build trace (the initial delete) leaves
no artifact at all — the previously-good index is removed before any
of the build has run, refuting the never-removed-before-completion clause. -/
theorem build_removes_old_index_counterexample :
    ((buildIndexEvents true [samplePdf]).take 1).length
        < (buildIndexEvents true [samplePdf]).length
    ∧ ((buildIndexEvents true [samplePdf]).take 1) <+: buildIndexEvents true [samplePdf]
    ∧ applyFsEvents (some sampleArtifact) ((buildIndexEvents true [samplePdf]).take 1) = none := by
  refine ⟨by decide, List.take_prefix _ _, by decide⟩

/-- C1 (amended): the new index artifact is written to its final
location only as the final step of the trace, after the whole build
completed in memory; however, when a previously persisted index
exists, it is deleted at the very start of the run, so a failure at
any point mid-build leaves no persisted index rather than the previous
one. -/
theorem applyFsEvents_append (fs : Option Artifact) (l1 l2 : List FsEvent) :
    applyFsEvents fs (l1 ++ l2) = applyFsEvents (applyFsEvents fs l1) l2 :=
  List.foldl_append _ _ _ _

theorem build_write_only_at_end (pdfs : List PdfInput) (old : Artifact) :
    (∀ p : List FsEvent, p <+: buildIndexEvents true pdfs →
      p.length < (buildIndexEvents true pdfs).length →
      applyFsEvents (some old) p = (if p = [] then some old else none))
    ∧ applyFsEvents (some old) (buildIndexEvents true pdfs)
        = some (buildArtifact pdfs) := by
  have hmarkers : ∀ e ∈ pdfs.map (fun p => FsEvent.processPdf p.fileName),
      ∃ nm, e = FsEvent.processPdf nm := by
    intro e he
    obtain ⟨pp, _, rfl⟩ := List.mem_map.1 he
    exact ⟨pp.fileName, rfl⟩
  have htr : buildIndexEvents true pdfs
      = FsEvent.unlinkDb :: (pdfs.map (fun p => FsEvent.processPdf p.fileName)
          ++ [FsEvent.writeDb (buildArtifact pdfs)]) := by
    simp [buildIndexEvents]
  constructor
  · intro p hp hl
    cases p with
    | nil => simp [applyFsEvents]
    | cons e p2 =>
      rw [htr] at hp hl
      obtain ⟨he, hp2⟩ := (List.cons_prefix_cons).1 hp
      subst he
      rw [if_neg (List.cons_ne_nil _ _)]
      show applyFsEvents none p2 = none
      have hlen : p2.length ≤ (pdfs.map (fun p => FsEvent.processPdf p.fileName)).length := by
        simp only [List.length_cons, List.length_append] at hl
        simp only [List.length_map] at hl ⊢
        simp at hl
        omega
      have hp3 : p2 <+: pdfs.map (fun p => FsEvent.processPdf p.fileName) := by
        have heq : p2 = (pdfs.map (fun p => FsEvent.processPdf p.fileName)
            ++ [FsEvent.writeDb (buildArtifact pdfs)]).take p2.length := by
          rw [List.prefix_iff_eq_take] at hp2
          exact hp2
        rw [List.take_append_of_le_length hlen] at heq
        rw [heq]
        exact List.take_prefix _ _
      exact applyFsEvents_markers p2 none (fun e he => hmarkers e (hp3.subset he))
  · rw [htr]
    show applyFsEvents none (pdfs.map (fun p => FsEvent.processPdf p.fileName)
        ++ [FsEvent.writeDb (buildArtifact pdfs)]) = some (buildArtifact pdfs)
    rw [applyFsEvents_append,
      applyFsEvents_markers _ none hmarkers]
    rfl

/-- Witness for C1 at a concrete one-file build with an existing
artifact, evaluated at the one-event prefix. -/
theorem build_write_only_at_end_witness :
    applyFsEvents (some sampleArtifact) [FsEvent.unlinkDb]
      = (if ([FsEvent.unlinkDb] : List FsEvent) = [] then some sampleArtifact else none) :=
  (build_write_only_at_end [samplePdf] sampleArtifact).1 [FsEvent.unlinkDb]
    (by decide) (by decide)

/-- C3 counterexample: the zero-length input does not yield zero chunks —
the section splitter falls back to one untitled empty section and the
chunker emits exactly one chunk with empty content. -/
theorem chunker_empty_input_counterexample :
    chunkText [] 1500 200 = [⟨0, [], none⟩] ∧ chunkText [] 1500 200 ≠ [] := by
  refine ⟨by decide, by decide⟩

/-- C3 (amended): the zero-length input yields exactly one chunk whose
content is empty (not zero chunks); and every non-empty text in which
the heading regex finds no match yields exactly one untitled section —
the trimmed text when that is longer than 50 characters, otherwise the
text itself via the fallback. -/
theorem chunker_edge_cases :
    chunkText [] 1500 200 = [⟨0, [], none⟩]
    ∧ (∀ text : Str, text ≠ [] → findHeadings text = [] →
        splitBySections text
          = [⟨none, if 50 < (jsTrim text).length then jsTrim text else text⟩]) := by
  constructor
  · decide
  · intro text hne hnh
    unfold splitBySections
    rw [hnh]
    simp only [List.foldl_nil]
    have hlen : 0 < text.length := List.length_pos.2 hne
    rw [if_pos hlen]
    rw [List.drop_zero]
    by_cases h50 : 50 < (jsTrim text).length
    · rw [if_pos h50, if_pos h50]
      simp
    · rw [if_neg h50, if_neg h50]
      simp

/-- Witness for C3 at a short heading-free text (falls into the ≤ 50
character fallback branch, yielding the untrimmed text). -/
theorem chunker_edge_cases_witness :
    splitBySections (("hello world").data) = [⟨none, ("hello world").data⟩] := by
  have h := chunker_edge_cases.2 (("hello world").data) (by decide) (by decide)
  rw [h]
  decide

theorem jsTrim_infix (s : Str) : jsTrim s <:+: s := by
  unfold jsTrim
  have h1 : (s.dropWhile isWsChar).reverse.dropWhile isWsChar <:+ (s.dropWhile isWsChar).reverse :=
    List.dropWhile_suffix _
  have h2 : ((s.dropWhile isWsChar).reverse.dropWhile isWsChar).reverse
      <+: (s.dropWhile isWsChar).reverse.reverse := List.reverse_prefix.2 h1
  rw [List.reverse_reverse] at h2
  exact h2.isInfix.trans (List.dropWhile_suffix isWsChar).isInfix

theorem jsTrim_length_le (s : Str) : (jsTrim s).length ≤ s.length :=
  ( jsTrim_infix s).length_le

theorem jsSubstring_infix (s : Str) (a b : Nat) : jsSubstring s a b <:+: s := by
  unfold jsSubstring
  exact ( List.take_prefix _ _).isInfix.trans (List.drop_suffix _ _).isInfix

theorem splitWsCore_strong (s : Str) :
    (splitWsCore s ≠ [])
    ∧ (∀ t ∈ splitWsCore s, (∀ c ∈ t, isWsChar c = false) ∧ t <:+: s)
    ∧ (∃ h tl, splitWsCore s = h :: tl ∧ h <+: s) := by
  induction s with
  | nil =>
    refine ⟨by simp [splitWsCore], ?_, [], [], by simp [splitWsCore], List.nil_prefix⟩
    intro t ht
    simp [splitWsCore] at ht
    simp [ht]
  | cons c rest ih =>
    obtain ⟨hne, hall, h, tl, heq, hpre⟩ := ih
    by_cases hws : isWsChar c
    · have hstep : splitWsCore (c :: rest) = [] :: splitWsCore rest := by
        simp [splitWsCore, hws]
      refine ⟨by simp [hstep], ?_, [], splitWsCore rest, by simp [hstep], List.nil_prefix⟩
      intro t ht
      rw [hstep] at ht
      rcases List.mem_cons.1 ht with rfl | ht2
      · simp
      · exact ⟨(hall t ht2).1, List.infix_cons (hall t ht2).2⟩
    · have hstep : splitWsCore (c :: rest) = (c :: h) :: tl := by
        simp [splitWsCore, hws, heq]
      have hch : (c :: h) <+: (c :: rest) := (List.cons_prefix_cons).2 ⟨rfl, hpre⟩
      refine ⟨by simp [hstep], ?_, c :: h, tl, hstep, hch⟩
      intro t ht
      rw [hstep] at ht
      rcases List.mem_cons.1 ht with rfl | ht2
      · constructor
        · intro x hx
          rcases List.mem_cons.1 hx with rfl | hx2
          · simpa using hws
          · exact (hall h (by rw [heq]; exact List.mem_cons_self h tl)).1 x hx2
        · exact hch.isInfix
      · have := hall t (by rw [heq]; exact List.mem_cons_of_mem h ht2)
        exact ⟨this.1, List.infix_cons this.2⟩

theorem splitWs_facts (s : Str) :
    ∀ w ∈ splitWs s, (∀ c ∈ w, isWsChar c = false) ∧ w <:+: s := by
  intro w hw
  unfold splitWs at hw
  by_cases hse : s.isEmpty
  · rw [if_pos hse] at hw
    simp at hw
    simp [hw]
  · rw [if_neg hse] at hw
    rcases List.mem_append.1 hw with hw2 | hw3
    · rcases List.mem_append.1 hw2 with hw4 | hw5
      · have : w = [] := by
          by_cases hh : (s.head?).any isWsChar <;> simp [hh] at hw4
          exact hw4
        simp [this]
      · exact (splitWsCore_strong s).2.1 w (List.mem_of_mem_filter hw5)
    · have : w = [] := by
        by_cases hh : (s.getLast?).any isWsChar <;> simp [hh] at hw3
        exact hw3
      simp [this]

theorem splitParas_strong (s : Str) :
    ((s.foldr splitParasStep ([[]], false)).1 ≠ [])
    ∧ (∀ t ∈ (s.foldr splitParasStep ([[]], false)).1, t <:+: s)
    ∧ (∃ h tl, (s.foldr splitParasStep ([[]], false)).1 = h :: tl ∧ h <+: s)
    ∧ ((s.foldr splitParasStep ([[]], false)).2 = true →
        ∃ tl, (s.foldr splitParasStep ([[]], false)).1 = [] :: tl) := by
  induction s with
  | nil =>
    refine ⟨by simp, ?_, ⟨[], [], rfl, List.nil_prefix⟩, by simp⟩
    intro t ht
    simp at ht
    simp [ht]
  | cons c rest ih =>
    obtain ⟨hne, hall, ⟨h, tl, heq, hpre⟩, hsep⟩ := ih
    have hpair : rest.foldr splitParasStep ([[]], false)
        = (h :: tl, (rest.foldr splitParasStep ([[]], false)).2) := by
      exact Prod.ext heq rfl
    have hstep : (c :: rest).foldr splitParasStep ([[]], false)
        = splitParasStep c (h :: tl, (rest.foldr splitParasStep ([[]], false)).2) := by
      rw [List.foldr_cons, hpair]
    by_cases hc : c = '\n'
    · subst hc
      cases hb : (rest.foldr splitParasStep ([[]], false)).2 with
      | true =>
        obtain ⟨tl2, heq2⟩ := hsep hb
        have hh : h = [] := by
          rw [heq2] at heq
          exact (List.cons.injEq _ _ _ _ ▸ heq).1.symm ▸ rfl
        subst hh
        have hres : ('\n' :: rest).foldr splitParasStep ([[]], false) = ([] :: tl, true) := by
          rw [hstep, hb]
          rfl
        refine ⟨by simp [hres], ?_, ⟨[], tl, by simp [hres], List.nil_prefix⟩, ?_⟩
        · intro t ht
          rw [hres] at ht
          rcases List.mem_cons.1 ht with rfl | ht2
          · simp
          · exact List.infix_cons (hall t (heq ▸ List.mem_cons_of_mem [] ht2))
        · intro _
          exact ⟨tl, by simp [hres]⟩
      | false =>
        rcases h with _ | ⟨c2, t2⟩
        · have hres : ('\n' :: rest).foldr splitParasStep ([[]], false)
              = (('\n' :: []) :: tl, false) := by
            rw [hstep, hb]
            rfl
          refine ⟨by simp [hres], ?_, ⟨'\n' :: [], tl, by simp [hres], ?_⟩, by simp [hres]⟩
          · intro t ht
            rw [hres] at ht
            rcases List.mem_cons.1 ht with rfl | ht2
            · exact ((List.cons_prefix_cons).2 ⟨rfl, hpre⟩).isInfix
            · exact List.infix_cons (hall t (heq ▸ List.mem_cons_of_mem [] ht2))
          · exact (List.cons_prefix_cons).2 ⟨rfl, hpre⟩
        · by_cases hc2 : c2 = '\n'
          · subst hc2
            have hres : ('\n' :: rest).foldr splitParasStep ([[]], false)
                = ([] :: t2 :: tl, true) := by
              rw [hstep, hb]
              rfl
            obtain ⟨r, hr⟩ := hpre
            refine ⟨by simp [hres], ?_, ⟨[], t2 :: tl, by simp [hres], List.nil_prefix⟩, ?_⟩
            · intro t ht
              rw [hres] at ht
              rcases List.mem_cons.1 ht with rfl | ht2
              · simp
              · rcases List.mem_cons.1 ht2 with rfl | ht3
                · refine List.infix_cons ?_
                  exact ⟨['\n'], r, by simpa using hr⟩
                · exact List.infix_cons (hall t (heq ▸ List.mem_cons_of_mem _ ht3))
            · intro _
              exact ⟨t2 :: tl, by simp [hres]⟩
          · have hres : ('\n' :: rest).foldr splitParasStep ([[]], false)
                = (('\n' :: c2 :: t2) :: tl, false) := by
              rw [hstep, hb]
              simp [splitParasStep, hc2]
            refine ⟨by simp [hres], ?_, ⟨'\n' :: c2 :: t2, tl, by simp [hres], ?_⟩, by simp [hres]⟩
            · intro t ht
              rw [hres] at ht
              rcases List.mem_cons.1 ht with rfl | ht2
              · exact ((List.cons_prefix_cons).2 ⟨rfl, hpre⟩).isInfix
              · exact List.infix_cons (hall t (heq ▸ List.mem_cons_of_mem _ ht2))
            · exact (List.cons_prefix_cons).2 ⟨rfl, hpre⟩
    · have hres : (c :: rest).foldr splitParasStep ([[]], false)
          = ((c :: h) :: tl, false) := by
        rw [hstep]
        simp [splitParasStep, hc]
      refine ⟨by simp [hres], ?_, ⟨c :: h, tl, by simp [hres], ?_⟩, by simp [hres]⟩
      · intro t ht
        rw [hres] at ht
        rcases List.mem_cons.1 ht with rfl | ht2
        · exact ((List.cons_prefix_cons).2 ⟨rfl, hpre⟩).isInfix
        · exact List.infix_cons (hall t (heq ▸ List.mem_cons_of_mem _ ht2))
      · exact (List.cons_prefix_cons).2 ⟨rfl, hpre⟩

theorem splitParas_infix (s : Str) : ∀ p ∈ splitParas s, p <:+: s := by
  intro p hp
  exact (splitParas_strong s).2.1 p hp

theorem sentencesFuel_infix :
    ∀ (fuel : Nat) (cs : Str), ∀ m ∈ sentencesFuel fuel cs, m <:+: cs := by
  intro fuel
  induction fuel with
  | zero => intro cs m hm; simp [sentencesFuel] at hm
  | succ fuel ih =>
    intro cs m hm
    simp only [sentencesFuel] at hm
    cases hrest : (cs.dropWhile isTermChar).dropWhile (fun c => !isTermChar c) with
    | nil => rw [hrest] at hm; simp at hm
    | cons r0 rtail =>
      rw [hrest] at hm
      rcases List.mem_cons.1 hm with rfl | hm2
      · have h1 : ((cs.dropWhile isTermChar).takeWhile (fun c => !isTermChar c)
            ++ (r0 :: rtail).takeWhile isTermChar) <+: cs.dropWhile isTermChar := by
          conv_rhs => rw [← List.takeWhile_append_dropWhile (fun c => !isTermChar c)
            (cs.dropWhile isTermChar), hrest]
          conv_rhs => rw [← List.takeWhile_append_dropWhile isTermChar (r0 :: rtail)]
          rw [← List.append_assoc]
          exact List.prefix_append _ _
        exact h1.isInfix.trans (List.dropWhile_suffix isTermChar).isInfix
      · have h2 := ih ((r0 :: rtail).dropWhile isTermChar) m hm2
        refine h2.trans (List.IsSuffix.isInfix ?_)
        refine (List.dropWhile_suffix isTermChar).trans ?_
        have h3 : (r0 :: rtail) <:+ cs.dropWhile isTermChar := by
          rw [← hrest]
          exact List.dropWhile_suffix _
        exact h3.trans (List.dropWhile_suffix isTermChar)

theorem sentenceMatches_infix (para : Str) :
    ∀ m ∈ sentenceMatches para, m <:+: para :=
  sentencesFuel_infix (para.length + 1) para

theorem sectionFold_infix (text : Str) :
    ∀ (ms : List (Nat × Nat × Str)) (st : List SectionRec × Nat × Option Str),
      (∀ sec ∈ st.1, sec.content <:+: text) →
      ∀ sec ∈ (ms.foldl (sectionStep text) st).1, sec.content <:+: text := by
  intro ms
  induction ms with
  | nil => intro st h sec hsec; exact h sec hsec
  | cons m ms ih =>
    intro st h sec hsec
    refine ih (sectionStep text st m) ?_ sec hsec
    intro sec2 hsec2
    simp only [sectionStep] at hsec2
    split at hsec2
    · split at hsec2
      · rcases List.mem_append.1 hsec2 with h1 | h2
        · exact h sec2 h1
        · have : sec2 = ⟨st.2.2, jsTrim (jsSubstring text st.2.1 m.1)⟩ := by simpa using h2
          rw [this]
          exact ( jsTrim_infix _).trans ( jsSubstring_infix text _ _)
      · exact h sec2 hsec2
    · exact h sec2 hsec2

theorem splitBySections_content_infix (text : Str) :
    ∀ sec ∈ splitBySections text, sec.content <:+: text := by
  intro sec hsec
  have hfold : ∀ s ∈ (List.foldl (sectionStep text) ([], 0, none) (findHeadings text)).1,
      s.content <:+: text :=
    sectionFold_infix text (findHeadings text) ([], 0, none) (by simp)
  have htail : ∀ s ∈ (List.foldl (sectionStep text) ([], 0, none) (findHeadings text)).1
      ++ [⟨(List.foldl (sectionStep text) ([], 0, none) (findHeadings text)).2.2,
           jsTrim (List.drop
             (List.foldl (sectionStep text) ([], 0, none) (findHeadings text)).2.1 text)⟩],
      s.content <:+: text := by
    intro s hs
    rcases List.mem_append.1 hs with h1 | h2
    · exact hfold s h1
    · have h : s = ⟨(List.foldl (sectionStep text) ([], 0, none) (findHeadings text)).2.2,
          jsTrim (List.drop
            (List.foldl (sectionStep text) ([], 0, none) (findHeadings text)).2.1 text)⟩ := by
        simpa using h2
      rw [h]
      exact ( jsTrim_infix _).trans (List.drop_suffix _ _).isInfix
  simp only [splitBySections] at hsec
  split at hsec
  all_goals try split at hsec
  all_goals try split at hsec
  case isTrue.isTrue.isTrue =>
    have h : sec = ⟨none, text⟩ := by simpa using hsec
    rw [h]
  case isTrue.isTrue.isFalse => exact htail sec hsec
  case isTrue.isFalse.isTrue =>
    have h : sec = ⟨none, text⟩ := by simpa using hsec
    rw [h]
  case isTrue.isFalse.isFalse => exact hfold sec hsec
  case isFalse.isTrue =>
    have h : sec = ⟨none, text⟩ := by simpa using hsec
    rw [h]
  case isFalse.isFalse => exact hfold sec hsec

theorem hasPref_length : ∀ (h n : Str), hasPref h n = true → n.length ≤ h.length := by
  intro h
  induction h with
  | nil =>
    intro n hn
    cases n with
    | nil => simp
    | cons d ds => simp [hasPref] at hn
  | cons c t ih =>
    intro n hn
    cases n with
    | nil => simp
    | cons d ds =>
      simp only [hasPref, Bool.and_eq_true] at hn
      have := ih ds hn.2
      simp only [List.length_cons]
      omega

theorem jsIndexOf_le : ∀ (h n : Str) (i : Nat),
    jsIndexOf h n = some i → i + n.length ≤ h.length := by
  intro h
  induction h with
  | nil =>
    intro n i hi
    simp only [jsIndexOf] at hi
    by_cases hp : hasPref [] n
    · rw [if_pos hp] at hi
      cases hi
      simpa using hasPref_length [] n hp
    · rw [if_neg hp] at hi
      cases hi
  | cons c t ih =>
    intro n i hi
    simp only [jsIndexOf] at hi
    by_cases hp : hasPref (c :: t) n
    · rw [if_pos hp] at hi
      cases hi
      simpa using hasPref_length (c :: t) n hp
    · rw [if_neg hp] at hi
      obtain ⟨j, hj, rfl⟩ := Option.map_eq_some'.1 hi
      have := ih n j hj
      simp only [List.length_cons]
      omega

theorem contMarker_length : contMarker.length = 7 := rfl

theorem overlapOne_length (ov : Nat) (prev cur : Str) :
    (overlapOne ov prev cur).length ≤ cur.length + ov + 5 := by
  simp only [overlapOne]
  cases hidx : jsIndexOf (List.drop (prev.length - ov) prev) [' '] with
  | none =>
    show List.length cur ≤ List.length cur + ov + 5
    omega
  | some ls =>
    by_cases hls : ls > 0
    · have hb := jsIndexOf_le _ _ _ hidx
      simp only [List.length_singleton, List.length_drop] at hb
      simp only [hls, if_true, List.length_append, List.length_drop, contMarker_length]
      omega
    · simp only [hls, Bool.false_eq_true, if_false]
      omega

theorem mem_zipWith_exists {α β γ : Type} {f : α → β → γ} :
    ∀ (l1 : List α) (l2 : List β) (x : γ),
      x ∈ List.zipWith f l1 l2 → ∃ a ∈ l1, ∃ b ∈ l2, x = f a b := by
  intro l1
  induction l1 with
  | nil => intro l2 x hx; simp at hx
  | cons a l1 ih =>
    intro l2 x hx
    cases l2 with
    | nil => simp at hx
    | cons b l2 =>
      simp only [List.zipWith_cons_cons] at hx
      rcases List.mem_cons.1 hx with rfl | hx2
      · exact ⟨a, List.mem_cons_self _ _, b, List.mem_cons_self _ _, rfl⟩
      · obtain ⟨a2, ha, b2, hb, rfl⟩ := ih l2 x hx2
        exact ⟨a2, List.mem_cons_of_mem _ ha, b2, List.mem_cons_of_mem _ hb, rfl⟩

theorem addOverlap_bound (chunks : List Str) (ov B : Nat)
    (h : ∀ ch ∈ chunks, ch.length ≤ B) :
    ∀ ch ∈ addOverlap chunks ov, ch.length ≤ B + ov + 5 := by
  intro ch hch
  unfold addOverlap at hch
  split at hch
  · exact le_trans (h ch hch) (by omega)
  · cases chunks with
    | nil => simp at hch
    | cons c0 rest =>
      rcases List.mem_cons.1 hch with rfl | hch2
      · exact le_trans (h ch (List.mem_cons_self _ _)) (by omega)
      · obtain ⟨a, ha, b, hb, rfl⟩ := mem_zipWith_exists _ _ _ hch2
        have hbB : b.length ≤ B := h b (List.mem_cons_of_mem _ hb)
        have := overlapOne_length ov a b
        omega

theorem wordFold_bound (maxCS : Nat) :
    ∀ (words : List Str) (chunks0 : List Str) (cur0 : Str),
      (∀ w ∈ words, w.length ≤ maxCS) →
      cur0.length ≤ maxCS + 1 →
      (∀ ch ∈ chunks0, ch.length ≤ maxCS + 1) →
      (∀ ch ∈ (words.foldl (wordStep maxCS) (chunks0, cur0)).1, ch.length ≤ maxCS + 1)
      ∧ (words.foldl (wordStep maxCS) (chunks0, cur0)).2.length ≤ maxCS + 1 := by
  intro words
  induction words with
  | nil =>
    intro chunks0 cur0 hw hc hch
    exact ⟨hch, hc⟩
  | cons w ws ih =>
    intro chunks0 cur0 hw hc hch
    have hwlen : w.length ≤ maxCS := hw w (List.mem_cons_self _ _)
    rw [List.foldl_cons]
    by_cases hcond : cur0.length + w.length > maxCS
    · have hstep : wordStep maxCS (chunks0, cur0) w = (chunks0 ++ [jsTrim cur0], w) := by
        simp [wordStep, hcond]
      rw [hstep]
      refine ih _ _ (fun x hx => hw x (List.mem_cons_of_mem _ hx)) (by omega) ?_
      intro ch hchm
      rcases List.mem_append.1 hchm with h1 | h2
      · exact hch ch h1
      · have hche : ch = jsTrim cur0 := by simpa using h2
        rw [hche]
        exact le_trans (jsTrim_length_le _) hc
    · have hstep : wordStep maxCS (chunks0, cur0) w
          = (chunks0, cur0 ++ (if cur0.isEmpty then [] else [' ']) ++ w) := by
        simp [wordStep, hcond]
      rw [hstep]
      refine ih _ _ (fun x hx => hw x (List.mem_cons_of_mem _ hx)) ?_ hch
      simp only [List.length_append]
      by_cases he : cur0.isEmpty <;> simp only [he, if_true, Bool.false_eq_true, if_false] <;>
        simp only [List.length_nil, List.length_singleton] <;> omega

theorem sentenceFold_bound (maxCS : Nat) :
    ∀ (sents : List Str) (chunks0 : List Str) (cur0 : Str),
      (∀ s ∈ sents, ∀ w ∈ splitWs s, w.length ≤ maxCS) →
      cur0.length ≤ maxCS + 1 →
      (∀ ch ∈ chunks0, ch.length ≤ maxCS + 1) →
      (∀ ch ∈ (sents.foldl (sentenceStep maxCS) (chunks0, cur0)).1, ch.length ≤ maxCS + 1)
      ∧ (sents.foldl (sentenceStep maxCS) (chunks0, cur0)).2.length ≤ maxCS + 1 := by
  intro sents
  induction sents with
  | nil =>
    intro chunks0 cur0 hs hc hch
    exact ⟨hch, hc⟩
  | cons s ss ih =>
    intro chunks0 cur0 hs hc hch
    rw [List.foldl_cons]
    have hch2 : ∀ ch ∈ (if cur0.length > 0 then chunks0 ++ [jsTrim cur0] else chunks0),
        ch.length ≤ maxCS + 1 := by
      intro ch hchm
      split at hchm
      · rcases List.mem_append.1 hchm with h1 | h2
        · exact hch ch h1
        · have hche : ch = jsTrim cur0 := by simpa using h2
          rw [hche]
          exact le_trans (jsTrim_length_le _) hc
      · exact hch ch hchm
    by_cases hcond : cur0.length + s.length > maxCS
    · by_cases hlong : s.length > maxCS
      · have hstep : sentenceStep maxCS (chunks0, cur0) s
            = (splitWs s).foldl (wordStep maxCS)
                ((if cur0.length > 0 then chunks0 ++ [jsTrim cur0] else chunks0), []) := by
          simp [sentenceStep, hcond, hlong]
        rw [hstep]
        obtain ⟨hw1, hw2⟩ := wordFold_bound maxCS (splitWs s) _ []
          (hs s (List.mem_cons_self _ _)) (by simp) hch2
        exact ih _ _ (fun x hx => hs x (List.mem_cons_of_mem _ hx)) hw2 hw1
      · have hstep : sentenceStep maxCS (chunks0, cur0) s
            = ((if cur0.length > 0 then chunks0 ++ [jsTrim cur0] else chunks0), s) := by
          simp [sentenceStep, hcond, hlong]
        rw [hstep]
        exact ih _ _ (fun x hx => hs x (List.mem_cons_of_mem _ hx)) (by omega) hch2
    · have hstep : sentenceStep maxCS (chunks0, cur0) s = (chunks0, cur0 ++ s) := by
        simp [sentenceStep, hcond]
      rw [hstep]
      refine ih _ _ (fun x hx => hs x (List.mem_cons_of_mem _ hx)) ?_ hch
      simp only [List.length_append]
      omega

theorem splitLongParagraph_bound (para : Str) (maxCS : Nat)
    (hw : ∀ s ∈ (if (sentenceMatches para).isEmpty then [para] else sentenceMatches para),
        ∀ w ∈ splitWs s, w.length ≤ maxCS) :
    ∀ ch ∈ splitLongParagraph para maxCS, ch.length ≤ maxCS + 1 := by
  intro ch hch
  simp only [splitLongParagraph] at hch
  obtain ⟨h1, h2⟩ := sentenceFold_bound maxCS
    (if (sentenceMatches para).isEmpty then [para] else sentenceMatches para) [] []
    hw (by simp) (by simp)
  by_cases hms : (sentenceMatches para).isEmpty
  · simp only [hms, if_true] at hch h1 h2
    split at hch
    · rcases List.mem_append.1 hch with ha | hb
      · exact h1 ch ha
      · rw [List.mem_singleton.1 hb]
        exact le_trans (jsTrim_length_le _) h2
    · exact h1 ch hch
  · simp only [hms, Bool.false_eq_true, if_false] at hch h1 h2
    split at hch
    · rcases List.mem_append.1 hch with ha | hb
      · exact h1 ch ha
      · rw [List.mem_singleton.1 hb]
        exact le_trans (jsTrim_length_le _) h2
    · exact h1 ch hch

theorem paraFold_bound (maxCS : Nat) :
    ∀ (paras : List Str) (chunks0 : List Str) (cur0 : Str),
      (∀ p ∈ paras,
        ∀ s ∈ (if (sentenceMatches p).isEmpty then [p] else sentenceMatches p),
        ∀ w ∈ splitWs s, w.length ≤ maxCS) →
      cur0.length ≤ maxCS + 2 →
      (∀ ch ∈ chunks0, ch.length ≤ maxCS + 2) →
      (∀ ch ∈ (paras.foldl (paraStep maxCS) (chunks0, cur0)).1, ch.length ≤ maxCS + 2)
      ∧ (paras.foldl (paraStep maxCS) (chunks0, cur0)).2.length ≤ maxCS + 2 := by
  intro paras
  induction paras with
  | nil =>
    intro chunks0 cur0 hp hc hch
    exact ⟨hch, hc⟩
  | cons p ps ih =>
    intro chunks0 cur0 hp hc hch
    rw [List.foldl_cons]
    have hch2 : ∀ ch ∈ (if cur0.length > 0 then chunks0 ++ [jsTrim cur0] else chunks0),
        ch.length ≤ maxCS + 2 := by
      intro ch hchm
      split at hchm
      · rcases List.mem_append.1 hchm with h1 | h2
        · exact hch ch h1
        · rw [List.mem_singleton.1 h2]
          exact le_trans (jsTrim_length_le _) hc
      · exact hch ch hchm
    by_cases hcond : cur0.length + p.length > maxCS
    · by_cases hlong : p.length > maxCS
      · have hsub := splitLongParagraph_bound p maxCS (hp p (List.mem_cons_self _ _))
        have hstep : paraStep maxCS (chunks0, cur0) p
            = ((if cur0.length > 0 then chunks0 ++ [jsTrim cur0] else chunks0)
                ++ (splitLongParagraph p maxCS).dropLast,
               ((splitLongParagraph p maxCS).getLast?).getD []) := by
          simp [paraStep, hcond, hlong]
        rw [hstep]
        refine ih _ _ (fun x hx => hp x (List.mem_cons_of_mem _ hx)) ?_ ?_
        · cases hlast : (splitLongParagraph p maxCS).getLast? with
          | none => simp
          | some x =>
            simp only [Option.getD_some]
            obtain ⟨ys, hys⟩ := List.getLast?_eq_some_iff.1 hlast
            have hxm : x ∈ splitLongParagraph p maxCS := by rw [hys]; simp
            exact le_trans (hsub x hxm) (by omega)
        · intro ch hchm
          rcases List.mem_append.1 hchm with h1 | h2
          · exact hch2 ch h1
          · have hchm2 : ch ∈ splitLongParagraph p maxCS := (List.dropLast_sublist _).subset h2
            exact le_trans (hsub ch hchm2) (by omega)
      · have hstep : paraStep maxCS (chunks0, cur0) p
            = ((if cur0.length > 0 then chunks0 ++ [jsTrim cur0] else chunks0), p) := by
          simp [paraStep, hcond, hlong]
        rw [hstep]
        exact ih _ _ (fun x hx => hp x (List.mem_cons_of_mem _ hx)) (by omega) hch2
    · have hstep : paraStep maxCS (chunks0, cur0) p
          = (chunks0, cur0 ++ (if cur0.isEmpty then [] else ['\n', '\n']) ++ p) := by
        simp [paraStep, hcond]
      rw [hstep]
      refine ih _ _ (fun x hx => hp x (List.mem_cons_of_mem _ hx)) ?_ hch
      simp only [List.length_append]
      by_cases he : cur0.isEmpty <;> simp only [he, if_true, Bool.false_eq_true, if_false] <;>
        simp <;> omega

theorem chunkSection_bound (text : Str) (maxCS ov : Nat)
    (hw : ∀ p ∈ splitParas text,
        ∀ s ∈ (if (sentenceMatches p).isEmpty then [p] else sentenceMatches p),
        ∀ w ∈ splitWs s, w.length ≤ maxCS) :
    ∀ ch ∈ chunkSection text maxCS ov, ch.length ≤ maxCS + ov + 7 := by
  intro ch hch
  simp only [chunkSection] at hch
  split at hch
  case isTrue hle =>
    rw [List.mem_singleton.1 hch]
    omega
  case isFalse hgt =>
    obtain ⟨h1, h2⟩ := paraFold_bound maxCS (splitParas text) [] [] hw (by simp) (by simp)
    have hb : ∀ c ∈ (if (List.foldl (paraStep maxCS) ([], []) (splitParas text)).2.length > 0
        then (List.foldl (paraStep maxCS) ([], []) (splitParas text)).1
          ++ [jsTrim (List.foldl (paraStep maxCS) ([], []) (splitParas text)).2]
        else (List.foldl (paraStep maxCS) ([], []) (splitParas text)).1),
        c.length ≤ maxCS + 2 := by
      intro c hcm
      split at hcm
      · rcases List.mem_append.1 hcm with ha | hbm
        · exact h1 c ha
        · rw [List.mem_singleton.1 hbm]
          exact le_trans (jsTrim_length_le _) h2
      · exact h1 c hcm
    have hfin := addOverlap_bound _ ov (maxCS + 2) hb ch hch
    omega

theorem snd_mem_of_mem_enum {α : Type} {l : List α} {i : Nat} {x : α}
    (h : (i, x) ∈ l.enum) : x ∈ l := by
  obtain ⟨h0, hlt, hx⟩ := List.mem_enumFrom h
  rw [hx]
  exact List.getElem_mem _

/-- C4 counterexample: with `maxChunkSize = 10` and `overlapSize = 8`,
the two-paragraph text `"aaaa bbbb\n\ncccc dddd"` produces a second
chunk `"bbbb [...] cccc dddd"` of 20 characters, exceeding
`maxChunkSize + overlapSize = 18` because of the 7-character
continuation marker. -/
theorem chunk_size_bound_counterexample :
    ∃ ch ∈ chunkText (("aaaa bbbb").data ++ ['\n', '\n'] ++ ("cccc dddd").data) 10 8,
      10 + 8 < ch.content.length := by
  decide

/-- C4 (amended): whenever no whitespace-free infix of the input exceeds
`maxChunkSize` (so word-boundary splitting can always succeed), every
chunk's content length is at most `maxChunkSize + overlapSize + 7`:
the overlap prefix plus the 7 characters of the `" [...] "` marker and
paragraph-joiner slack are the only permitted excess. -/
theorem chunk_size_bound (text : Str) (maxCS ov : Nat)
    (hword : ∀ u : Str, u <:+: text → (∀ c ∈ u, isWsChar c = false) → u.length ≤ maxCS) :
    ∀ ch ∈ chunkText text maxCS ov, ch.content.length ≤ maxCS + ov + 7 := by
  intro ch hch
  simp only [chunkText] at hch
  obtain ⟨a, hmem, heq⟩ := List.mem_map.1 hch
  obtain ⟨i, pr⟩ := a
  have hpr : pr ∈ (splitBySections text).flatMap (fun sec =>
      (chunkSection sec.content maxCS ov).map (fun c => (jsTrim c, sec.title))) :=
    snd_mem_of_mem_enum hmem
  obtain ⟨sec, hsec, hprmem⟩ := List.mem_flatMap.1 hpr
  obtain ⟨c, hc, hpreq⟩ := List.mem_map.1 hprmem
  have hcontent : ch.content = jsTrim c := by
    rw [← heq, ← hpreq]
  have hw : ∀ p ∈ splitParas sec.content,
      ∀ s ∈ (if (sentenceMatches p).isEmpty then [p] else sentenceMatches p),
      ∀ w ∈ splitWs s, w.length ≤ maxCS := by
    intro p hp s hs w hwm
    obtain ⟨hwfree, hwin⟩ := splitWs_facts s w hwm
    have hsin : s <:+: p := by
      by_cases hms : (sentenceMatches p).isEmpty
      · rw [if_pos hms] at hs
        rw [List.mem_singleton.1 hs]
      · rw [if_neg hms] at hs
        exact sentenceMatches_infix p s hs
    exact hword w
      (hwin.trans (hsin.trans (( splitParas_infix _ p hp).trans
        ( splitBySections_content_infix text sec hsec)))) hwfree
  rw [hcontent]
  exact le_trans (jsTrim_length_le c) (chunkSection_bound sec.content maxCS ov hw c hc)

/-- Witness for C4 at default-like options on a short text whose
whitespace-free infixes are all far below the chunk size. -/
theorem chunk_size_bound_witness :
    (⟨0, ("hello world").data, none⟩ : ChunkRec).content.length ≤ 1500 + 200 + 7 :=
  chunk_size_bound (("hello world").data) 1500 200
    (by
      intro u hu hfree
      have h2 := hu.length_le
      have h3 : (("hello world").data).length = 11 := rfl
      omega)
    ⟨0, ("hello world").data, none⟩ (by decide)
